import Mathlib

/-!
Verification development for `compare_projects.py` (BasicFolderCompare).

The script is shallowly embedded here.  Strings are modelled as `List Char`,
byte sequences as `List Nat` (each entry a byte value), filesystem trees as an
inductive type, and Python sets as lists (membership is all the comparison
logic uses).  Where the script calls into the Python standard library
(`pathlib.PurePath.suffix`, `fnmatch`, `os.walk`, `open` with
`encoding='utf-8', errors='ignore'`, `difflib.unified_diff`), the relevant
stdlib behaviour is embedded faithfully as well, specialised to the way the
script invokes it.

Recursions that are not structural in the source are implemented with an
explicit depth counter whose initial value provably dominates the recursion
depth; when the counter would run out the guards of the modelled loop are
already false, so the counter never changes the computed value.
-/

namespace CompareProjects

/-- One textual name (a filename, a directory name, a pattern, an extension):
a Python `str` modelled as a list of characters. -/
abbrev Name := List Char

/-- A path relative to a scan root, as its list of components.  The script
keys its sets by `str(rel_path)`, i.e. the components joined with `/`; since
component names never contain `/`, the component list is an equivalent key. -/
abbrev RelPath := List Name

/-- ASCII lowering of one character; models Python `str.lower()` on the
(extension) strings the script lowers. -/
def asciiLower (c : Char) : Char :=
  if 'A' ≤ c ∧ c ≤ 'Z' then Char.ofNat (c.toNat + 32) else c

/-- Index of the last occurrence of `'.'` in a name, or `none`; models
`str.rfind('.')` (which returns `-1` when absent) as used by
`pathlib.PurePath.suffix`. -/
def rfindDot : Name → Option Nat
  | [] => none
  | c :: rest =>
    match rfindDot rest with
    | some i => some (i + 1)
    | none => if c = '.' then some 0 else none

/-- `pathlib.PurePath.suffix` of a file name: `name[i:]` for `i = rfind('.')`
when `0 < i < len(name) - 1`, else the empty string.  The leading dot is part
of the suffix; a leading-dot-only name (".gitignore") and a trailing-dot name
("file.") have empty suffix. -/
def pathSuffix (name : Name) : Name :=
  match rfindDot name with
  | none => []
  | some i => if 0 < i ∧ i < name.length - 1 then name.drop i else []

/-- The extension the script filters on: `file_path.suffix.lower()`
(line 43 of `compare_projects.py`). -/
def extOf (name : Name) : Name :=
  (pathSuffix name).map asciiLower

/-!
`fnmatch.fnmatch(filename, pattern)` on POSIX (`os.path.normcase` is the
identity there).  `fnmatch.translate` turns the pattern into a regex:
`*` → `.*`, `?` → any one character, `[...]` → a character class (leading
`!` complements it, a `]` right after the opening is literal, `-` between two
characters is a range, a `[` with no closing `]` is a literal `[`), any other
character is literal.  We implement that regex's matching directly.
-/

/-- Scan a character-class body for its closing `]`: returns the body and the
rest of the pattern, or `none` if the class is unterminated. -/
def scanToClose : List Char → Option (List Char × List Char)
  | [] => none
  | ']' :: r => some ([], r)
  | c :: r =>
    match scanToClose r with
    | some (b, rest) => some (c :: b, rest)
    | none => none

/-- Parse the part of a pattern following `[`: negation flag, class body,
rest of the pattern (`none` when there is no closing `]`, in which case
`fnmatch.translate` emits a literal `[`). -/
def parseClass (p : List Char) : Option (Bool × List Char × List Char) :=
  let (neg, p1) := match p with
    | '!' :: r => (true, r)
    | _ => (false, p)
  match p1 with
  | ']' :: r2 =>
    match scanToClose r2 with
    | some (b, rest) => some (neg, ']' :: b, rest)
    | none => none
  | _ =>
    match scanToClose p1 with
    | some (b, rest) => some (neg, b, rest)
    | none => none

/-- Does character `c` match the (already parsed) class body?  `x-y` between
two characters is a codepoint range, every other character matches itself. -/
def classMatch (c : Char) : List Char → Bool
  | [] => false
  | lo :: '-' :: hi :: rest => (lo ≤ c ∧ c ≤ hi) || classMatch c rest
  | x :: rest => (x = c) || classMatch c rest

/-- Glob matching, structured on a depth counter.  Every step consumes at
least one character of the pattern or of the string, so
`pattern.length + s.length` steps always suffice; when the counter is `0`
both lists are empty and the remaining-match answer is `true` exactly when
the pattern is empty. -/
def globMatchAux : Nat → List Char → List Char → Bool
  | _, [], s => s.isEmpty
  | 0, _ :: _, _ => false
  | fuel + 1, '*' :: p, s =>
    globMatchAux fuel p s ||
      (match s with
       | [] => false
       | _ :: s' => globMatchAux fuel ('*' :: p) s')
  | fuel + 1, '?' :: p, s =>
    match s with
    | [] => false
    | _ :: s' => globMatchAux fuel p s'
  | fuel + 1, '[' :: p, s =>
    match parseClass p with
    | some (neg, body, rest) =>
      match s with
      | [] => false
      | c :: s' => (classMatch c body != neg) && globMatchAux fuel rest s'
    | none =>
      match s with
      | [] => false
      | c :: s' => (c = '[' : Bool) && globMatchAux fuel p s'
  | fuel + 1, c :: p, s =>
    match s with
    | [] => false
    | c' :: s' => (c = c' : Bool) && globMatchAux fuel p s'

/-- `fnmatch.fnmatch(s, pattern)` (POSIX). -/
def fnmatchMatch (pattern s : List Char) : Bool :=
  globMatchAux (pattern.length + s.length) pattern s

/-- The filter options handed to `ProjectComparator.__init__` (lines 26-34):
Python builds `set(...)` of each; only membership / emptiness / iteration
are ever used, so plain lists model them. -/
structure FilterConfig where
  ignore_ext : List Name
  only_ext : List Name
  ignore_dirs : List Name
  ignore_files : List Name

/-- `ProjectComparator._should_ignore` (lines 41-59): the filename-pattern
loop, then the `only_ext` allow-list test, then the `ignore_ext` test. -/
def should_ignore (cfg : FilterConfig) (filename : Name) : Bool :=
  let ext := extOf filename
  if cfg.ignore_files.any (fun pat => fnmatchMatch pat filename) then true
  else if cfg.only_ext ≠ [] ∧ ext ∉ cfg.only_ext then true
  else if ext ∈ cfg.ignore_ext then true
  else false

/-!
The filesystem and `ProjectComparator._get_relative_files` (lines 61-78).

A tree entry is classified the way `os.walk` (default `topdown=True`,
`followlinks=False`) classifies it via `os.scandir`: an entry goes into
`dirs` iff `entry.is_dir()` holds — and `is_dir` follows symlinks, so a
symlink to a directory lands in `dirs` but, because `followlinks` is false,
is never descended into; every non-directory entry — a regular file, a
symlink to a regular file, a device/fifo — lands in `filenames` and is
passed to `_should_ignore`.  `dirs[:] = [d for d in dirs if d not in
self.ignore_dirs]` removes subdirectories whose bare name is ignored before
any descent.
-/

/-- The contents of one directory, as a sibling-chained sequence of
entries (`nil` ends the sibling list).  `symlinkFile` is a symlink
resolving to a regular file (its target's bytes attached), `symlinkDir` a
symlink resolving to a directory, `special` a device/fifo-style entry that
is neither a directory nor readable as a regular file. -/
inductive Forest where
  | nil
  | file (name : Name) (content : List Nat) (rest : Forest)
  | symlinkFile (name : Name) (content : List Nat) (rest : Forest)
  | special (name : Name) (rest : Forest)
  | dir (name : Name) (children : Forest) (rest : Forest)
  | symlinkDir (name : Name) (children : Forest) (rest : Forest)

/-- The walk of `_get_relative_files` over the contents of one directory
whose relative path is `pre`.  The collected relative paths land in a
Python `set`, so only membership matters, not order or multiplicity. -/
def walkFiles (cfg : FilterConfig) (pre : RelPath) : Forest → List RelPath
  | .nil => []
  | .file n _ rest =>
    (if should_ignore cfg n then [] else [pre ++ [n]]) ++ walkFiles cfg pre rest
  | .symlinkFile n _ rest =>
    (if should_ignore cfg n then [] else [pre ++ [n]]) ++ walkFiles cfg pre rest
  | .special n rest =>
    (if should_ignore cfg n then [] else [pre ++ [n]]) ++ walkFiles cfg pre rest
  | .dir n ch rest =>
    (if n ∈ cfg.ignore_dirs then [] else walkFiles cfg (pre ++ [n]) ch) ++
      walkFiles cfg pre rest
  | .symlinkDir _ _ rest => walkFiles cfg pre rest

/-- `ProjectComparator._get_relative_files(base_path)`: all surviving
relative paths under one root. -/
def get_relative_files (cfg : FilterConfig) (tree : Forest) : List RelPath :=
  walkFiles cfg [] tree

/-!
Reading a file as text: `open(file, 'r', encoding='utf-8', errors='ignore')`
followed by `readlines()` (lines 87-90).  Text mode means UTF-8 decoding
with the given error handler, then universal-newline translation
(`newline=None`), then splitting after each `'\n'`.
-/

/-- Is `b` a UTF-8 continuation byte (`0x80`-`0xBF`)? -/
def isCont (b : Nat) : Bool := 0x80 ≤ b ∧ b ≤ 0xBF

/-- CPython's UTF-8 decoder with a parametric error policy: on an invalid
sequence the maximal valid subpart is consumed, `repl` is emitted (`[]` is
`errors='ignore'`, `[U+FFFD]` is `errors='replace'`), and decoding resumes
at the offending byte.  Lead/second-byte ranges are the RFC 3629 ones
CPython enforces (no overlong forms, no surrogates, nothing past
U+10FFFF). -/
def utf8DecodeWith (repl : List Char) : List Nat → List Char
  | [] => []
  | b :: rest =>
    if b ≤ 0x7F then Char.ofNat b :: utf8DecodeWith repl rest
    else if 0xC2 ≤ b ∧ b ≤ 0xDF then
      match rest with
      | [] => repl
      | c1 :: rest1 =>
        if isCont c1 then
          Char.ofNat ((b - 0xC0) * 0x40 + (c1 - 0x80)) :: utf8DecodeWith repl rest1
        else repl ++ utf8DecodeWith repl (c1 :: rest1)
    else if 0xE0 ≤ b ∧ b ≤ 0xEF then
      match rest with
      | [] => repl
      | c1 :: rest1 =>
        if (if b = 0xE0 then 0xA0 else 0x80) ≤ c1 ∧
            c1 ≤ (if b = 0xED then 0x9F else 0xBF) then
          match rest1 with
          | [] => repl
          | c2 :: rest2 =>
            if isCont c2 then
              Char.ofNat ((b - 0xE0) * 0x1000 + (c1 - 0x80) * 0x40 + (c2 - 0x80)) ::
                utf8DecodeWith repl rest2
            else repl ++ utf8DecodeWith repl (c2 :: rest2)
        else repl ++ utf8DecodeWith repl (c1 :: rest1)
    else if 0xF0 ≤ b ∧ b ≤ 0xF4 then
      match rest with
      | [] => repl
      | c1 :: rest1 =>
        if (if b = 0xF0 then 0x90 else 0x80) ≤ c1 ∧
            c1 ≤ (if b = 0xF4 then 0x8F else 0xBF) then
          match rest1 with
          | [] => repl
          | c2 :: rest2 =>
            if isCont c2 then
              match rest2 with
              | [] => repl
              | c3 :: rest3 =>
                if isCont c3 then
                  Char.ofNat ((b - 0xF0) * 0x40000 + (c1 - 0x80) * 0x1000 +
                      (c2 - 0x80) * 0x40 + (c3 - 0x80)) :: utf8DecodeWith repl rest3
                else repl ++ utf8DecodeWith repl (c3 :: rest3)
            else repl ++ utf8DecodeWith repl (c2 :: rest2)
        else repl ++ utf8DecodeWith repl (c1 :: rest1)
    else repl ++ utf8DecodeWith repl rest

/-- Text-mode universal-newline translation (`newline=None`): `"\r\n"` and
a lone `'\r'` both become `'\n'`. -/
def univNewlines : List Char → List Char
  | [] => []
  | '\r' :: '\n' :: rest => '\n' :: univNewlines rest
  | '\r' :: rest => '\n' :: univNewlines rest
  | c :: rest => c :: univNewlines rest

/-- `readlines()` on translated text: split after each `'\n'`, keeping the
newline; a trailing fragment without a newline is a final line.  `acc`
holds the current line reversed. -/
def splitAfterNl (acc : List Char) : List Char → List (List Char)
  | [] => if acc = [] then [] else [acc.reverse]
  | '\n' :: rest => (acc.reverse ++ ['\n']) :: splitAfterNl [] rest
  | c :: rest => splitAfterNl (c :: acc) rest

/-- `open(file, 'r', encoding='utf-8', errors='ignore').readlines()` on the
given raw bytes. -/
def pyReadLines (bytes : List Nat) : List (List Char) :=
  splitAfterNl [] (univNewlines (utf8DecodeWith [] bytes))

/-- What a directory lookup found: a readable regular file's bytes (also
through a file symlink), a special unreadable entry, or a subdirectory
(also through a directory symlink — `open` follows symlinks). -/
inductive Located where
  | fileBytes (content : List Nat)
  | specialEntry
  | subdir (children : Forest)

/-- Lookup of one name among the entries of a directory (a real directory
holds each name once; in a model with duplicates the first wins). -/
def findEntry (n : Name) : Forest → Option Located
  | .nil => none
  | .file n' c rest => if n = n' then some (.fileBytes c) else findEntry n rest
  | .symlinkFile n' c rest => if n = n' then some (.fileBytes c) else findEntry n rest
  | .special n' rest => if n = n' then some .specialEntry else findEntry n rest
  | .dir n' ch rest => if n = n' then some (.subdir ch) else findEntry n rest
  | .symlinkDir n' ch rest => if n = n' then some (.subdir ch) else findEntry n rest

/-- Opening `root/relpath` for reading: `.ok` with the bytes when the path
resolves to a regular file (symlinks followed), `.error` with the raised
exception's description otherwise.  The description strings stand for
`str(e)`; the script only interpolates them into its error line, so their
exact text is a model parameter. -/
def readBytes : RelPath → Forest → Except Name (List Nat)
  | [], _ => .error (String.toList "IsADirectoryError")
  | [n], f =>
    match findEntry n f with
    | none => .error (String.toList "FileNotFoundError")
    | some (.fileBytes c) => .ok c
    | some .specialEntry => .error (String.toList "OSError")
    | some (.subdir _) => .error (String.toList "IsADirectoryError")
  | n :: m :: rest, f =>
    match findEntry n f with
    | some (.subdir ch) => readBytes (m :: rest) ch
    | _ => .error (String.toList "NotADirectoryError")

/-!
`difflib.unified_diff(lines1, lines2, fromfile=..., tofile=..., lineterm='')`
exactly as the script calls it (lines 93-98): the matcher is
`SequenceMatcher(None, a, b)` — no junk predicate, `autojunk=True`, default
context `n=3`.  The embedding follows CPython's `difflib.py`.
-/

/-- One line handed to the differ. -/
abbrev Line := List Char

/-- `__chain_b`'s autojunk popularity cut: an element of `b` is dropped
from `b2j` when `b` has at least 200 elements and the element occurs more
than `len(b) // 100 + 1` times. -/
def isPopular (b : List Line) (x : Line) : Bool :=
  decide (200 ≤ b.length) && decide (b.length / 100 + 1 < b.count x)

/-- `b2j[x]` after `__chain_b`: the ascending list of indices of `x` in
`b`, empty for a popular element (and for an absent one — `.get(x, [])`). -/
def b2j (b : List Line) (x : Line) : List Nat :=
  if isPopular b x then []
  else (List.range b.length).filter (fun j => b.get? j = some x)

/-- With `isjunk=None` the junk set `bjunk` is empty. -/
def isbjunk (_ : Line) : Bool := false

/-- The running `besti, bestj, bestsize` of `find_longest_match`. -/
structure FlmBest where
  besti : Nat
  bestj : Nat
  bestsize : Nat
deriving DecidableEq

/-- The inner `for j in b2j.get(a[i], nothing)` loop of
`find_longest_match`: `j < blo` is `continue`, `j >= bhi` is `break`
(the index lists are ascending, so stopping drops the tail); otherwise
`k = newj2len[j] = j2len.get(j-1, 0) + 1` and a strictly-better best is
recorded.  `j2len` is the previous row's dictionary as a total function
(0 when the key is absent; `j2len.get(-1, 0)` is the `j = 0` case) and
`acc` is the `newj2len` row being built. -/
def flmJStep (blo bhi i : Nat) (j2len : Nat → Nat) :
    List Nat → (Nat → Nat) → FlmBest → ((Nat → Nat) × FlmBest)
  | [], acc, st => (acc, st)
  | j :: js, acc, st =>
    if j < blo then flmJStep blo bhi i j2len js acc st
    else if bhi ≤ j then (acc, st)
    else
      let k := (if j = 0 then 0 else j2len (j - 1)) + 1
      let acc' := Function.update acc j k
      let st' := if st.bestsize < k then FlmBest.mk (i + 1 - k) (j + 1 - k) k else st
      flmJStep blo bhi i j2len js acc' st'

/-- The outer `for i in range(alo, ahi)` loop: each row starts a fresh
`newj2len` and feeds the previous row to `flmJStep`. -/
def flmRows (a b : List Line) (blo bhi : Nat) :
    List Nat → ((Nat → Nat) × FlmBest) → ((Nat → Nat) × FlmBest)
  | [], s => s
  | i :: rows, s =>
    let js := match a.get? i with
      | some x => b2j b x
      | none => []
    flmRows a b blo bhi rows (flmJStep blo bhi i s.1 js (fun _ => 0) s.2)

/-- Guard of the two downward `while` loops of `find_longest_match`
(`junkFlag = false` for the non-junk loop, `true` for the junk loop). -/
def extendLeftCond (a b : List Line) (alo blo : Nat) (junkFlag : Bool)
    (st : FlmBest) : Bool :=
  decide (alo < st.besti) && decide (blo < st.bestj) &&
    (match b.get? (st.bestj - 1), a.get? (st.besti - 1) with
     | some y, some x => decide (isbjunk y = junkFlag) && decide (x = y)
     | _, _ => false)

/-- One downward widening loop.  The counter starts at `besti` and
decrements in lock-step with it; when it reaches 0 the guard
`besti > alo` is false anyway, so the counter never cuts the loop short. -/
def extendLeftGo (a b : List Line) (alo blo : Nat) (junkFlag : Bool) :
    Nat → FlmBest → FlmBest
  | 0, st => st
  | fuel + 1, st =>
    if extendLeftCond a b alo blo junkFlag st then
      extendLeftGo a b alo blo junkFlag fuel
        (FlmBest.mk (st.besti - 1) (st.bestj - 1) (st.bestsize + 1))
    else st

/-- `while besti > alo and bestj > blo and ... : besti, bestj, bestsize =
besti-1, bestj-1, bestsize+1`. -/
def extendLeft (a b : List Line) (alo blo : Nat) (junkFlag : Bool)
    (st : FlmBest) : FlmBest :=
  extendLeftGo a b alo blo junkFlag st.besti st

/-- Guard of the two upward `while` loops of `find_longest_match`. -/
def extendRightCond (a b : List Line) (ahi bhi : Nat) (junkFlag : Bool)
    (st : FlmBest) : Bool :=
  decide (st.besti + st.bestsize < ahi) && decide (st.bestj + st.bestsize < bhi) &&
    (match b.get? (st.bestj + st.bestsize), a.get? (st.besti + st.bestsize) with
     | some y, some x => decide (isbjunk y = junkFlag) && decide (x = y)
     | _, _ => false)

/-- One upward widening loop; the counter starts at
`bhi - (bestj + bestsize)`, which hits 0 exactly when the guard
`bestj + bestsize < bhi` fails. -/
def extendRightGo (a b : List Line) (ahi bhi : Nat) (junkFlag : Bool) :
    Nat → FlmBest → FlmBest
  | 0, st => st
  | fuel + 1, st =>
    if extendRightCond a b ahi bhi junkFlag st then
      extendRightGo a b ahi bhi junkFlag fuel
        (FlmBest.mk st.besti st.bestj (st.bestsize + 1))
    else st

/-- `while besti+bestsize < ahi and bestj+bestsize < bhi and ... :
bestsize += 1`. -/
def extendRight (a b : List Line) (ahi bhi : Nat) (junkFlag : Bool)
    (st : FlmBest) : FlmBest :=
  extendRightGo a b ahi bhi junkFlag (bhi - (st.bestj + st.bestsize)) st

/-- `find_longest_match(alo, ahi, blo, bhi)`: the dictionary phase over
`range(alo, ahi)`, then the four widening loops (non-junk down, non-junk
up, junk down, junk up). -/
def findLongestMatch (a b : List Line) (alo ahi blo bhi : Nat) : FlmBest :=
  let s := flmRows a b blo bhi (List.range' alo (ahi - alo))
    (fun _ => 0, FlmBest.mk alo blo 0)
  let st1 := extendLeft a b alo blo false s.2
  let st2 := extendRight a b ahi bhi false st1
  let st3 := extendLeft a b alo blo true st2
  extendRight a b ahi bhi true st3

/-- Lexicographic comparison of block triples, as Python's `tuple.sort()`
orders them. -/
def tripleLe (x y : Nat × Nat × Nat) : Bool :=
  decide (x.1 < y.1) ||
    (decide (x.1 = y.1) &&
      (decide (x.2.1 < y.2.1) ||
        (decide (x.2.1 = y.2.1) && decide (x.2.2 ≤ y.2.2))))

/-- Insert into a sorted list (used to model Python's `sort()`; all lists
sorted here have pairwise distinct keys under a total order, for which
every sort returns the same list). -/
def insertSorted (le : α → α → Bool) (x : α) : List α → List α
  | [] => [x]
  | y :: ys => if le x y then x :: y :: ys else y :: insertSorted le x ys

/-- Sorting, used both for `matching_blocks.sort()` and for
`sorted(common_files)`. -/
def insertionSort (le : α → α → Bool) : List α → List α
  | [] => []
  | x :: xs => insertSorted le x (insertionSort le xs)

/-- `get_matching_blocks`'s splitting around each longest match.  The
source keeps a work queue and sorts the collected blocks afterwards; the
recursive visit produces the same multiset of blocks, and the sort makes
the orders agree.  The depth counter dominates the recursion depth: each
recursive call strictly shrinks `(ahi - alo) + (bhi - blo)` (the recursion
guards give `alo < besti ≤ ahi`, `blo < bestj ≤ bhi` on the left and
`alo ≤ besti < besti + bestsize < ahi`, likewise on the right), and the
wrapper passes that sum plus one. -/
def matchingBlocksAux (a b : List Line) :
    Nat → Nat → Nat → Nat → Nat → List (Nat × Nat × Nat)
  | 0, _, _, _, _ => []
  | fuel + 1, alo, ahi, blo, bhi =>
    let m := findLongestMatch a b alo ahi blo bhi
    if m.bestsize = 0 then []
    else
      (if alo < m.besti ∧ blo < m.bestj then
        matchingBlocksAux a b fuel alo m.besti blo m.bestj
      else []) ++
      [(m.besti, m.bestj, m.bestsize)] ++
      (if m.besti + m.bestsize < ahi ∧ m.bestj + m.bestsize < bhi then
        matchingBlocksAux a b fuel (m.besti + m.bestsize) ahi
          (m.bestj + m.bestsize) bhi
      else [])

/-- The second half of `get_matching_blocks`: the `non_adjacent` loop that
merges adjacent blocks, starting from `i1 = j1 = k1 = 0` and keeping only
non-empty merged blocks. -/
def coalesceBlocks : (Nat × Nat × Nat) → List (Nat × Nat × Nat) → List (Nat × Nat × Nat)
  | (i1, j1, k1), [] => if k1 ≠ 0 then [(i1, j1, k1)] else []
  | (i1, j1, k1), (i2, j2, k2) :: rest =>
    if i1 + k1 = i2 ∧ j1 + k1 = j2 then coalesceBlocks (i1, j1, k1 + k2) rest
    else (if k1 ≠ 0 then [(i1, j1, k1)] else []) ++ coalesceBlocks (i2, j2, k2) rest

/-- `get_matching_blocks()`: split, sort, merge adjacent, and append the
`(la, lb, 0)` sentinel. -/
def getMatchingBlocks (a b : List Line) : List (Nat × Nat × Nat) :=
  let blocks := insertionSort tripleLe
    (matchingBlocksAux a b (a.length + b.length + 1) 0 a.length 0 b.length)
  coalesceBlocks (0, 0, 0) blocks ++ [(a.length, b.length, 0)]

/-- An opcode tag. -/
inductive Tag where
  | replace
  | delete
  | insert
  | equal
deriving DecidableEq

/-- One `(tag, i1, i2, j1, j2)` opcode. -/
structure Opc where
  tag : Tag
  i1 : Nat
  i2 : Nat
  j1 : Nat
  j2 : Nat
deriving DecidableEq

/-- The loop of `get_opcodes()` over the matching blocks, carrying the
`i, j` cursor. -/
def opcodesLoop : Nat → Nat → List (Nat × Nat × Nat) → List Opc
  | _, _, [] => []
  | i, j, (ai, bj, size) :: rest =>
    (if i < ai ∧ j < bj then [Opc.mk Tag.replace i ai j bj]
     else if i < ai then [Opc.mk Tag.delete i ai j bj]
     else if j < bj then [Opc.mk Tag.insert i ai j bj]
     else []) ++
    (if size ≠ 0 then [Opc.mk Tag.equal ai (ai + size) bj (bj + size)] else []) ++
    opcodesLoop (ai + size) (bj + size) rest

/-- `get_opcodes()`. -/
def getOpcodes (a b : List Line) : List Opc :=
  opcodesLoop 0 0 (getMatchingBlocks a b)

/-- `get_grouped_opcodes(n)`: shrink a leading `equal` opcode to `n`
context lines. -/
def trimHead (ctx : Nat) : List Opc → List Opc
  | ⟨Tag.equal, i1, i2, j1, j2⟩ :: rest =>
    Opc.mk Tag.equal (max i1 (i2 - ctx)) i2 (max j1 (j2 - ctx)) j2 :: rest
  | other => other

/-- `get_grouped_opcodes(n)`: shrink a trailing `equal` opcode to `n`
context lines. -/
def trimLast (ctx : Nat) : List Opc → List Opc
  | [] => []
  | [Opc.mk Tag.equal i1 i2 j1 j2] =>
    [Opc.mk Tag.equal i1 (min i2 (i1 + ctx)) j1 (min j2 (j1 + ctx))]
  | x :: rest => x :: trimLast ctx rest

/-- Is the group a single `equal` opcode (such a group is not yielded)? -/
def isSingleEqual : List Opc → Bool
  | [op] => decide (op.tag = Tag.equal)
  | _ => false

/-- The grouping loop of `get_grouped_opcodes(n)`: a large interior
`equal` opcode (more than `2n` lines) closes the current group with `n`
trailing context lines and opens the next with `n` leading ones; the final
group is yielded unless it is a lone `equal`. -/
def groupLoop (ctx : Nat) : List Opc → List Opc → List (List Opc)
  | [], group =>
    if group ≠ [] ∧ isSingleEqual group = false then [group] else []
  | op :: rest, group =>
    if op.tag = Tag.equal ∧ ctx + ctx < op.i2 - op.i1 then
      (group ++ [Opc.mk op.tag op.i1 (min op.i2 (op.i1 + ctx))
          op.j1 (min op.j2 (op.j1 + ctx))]) ::
        groupLoop ctx rest
          [Opc.mk op.tag (max op.i1 (op.i2 - ctx)) op.i2
            (max op.j1 (op.j2 - ctx)) op.j2]
    else groupLoop ctx rest (group ++ [op])

/-- `get_grouped_opcodes(n)`: empty opcode lists get the dummy
`('equal', 0, 1, 0, 1)`, the outer `equal` opcodes are trimmed to `n`
context lines, then the grouping loop runs. -/
def getGroupedOpcodes (ctx : Nat) (codes0 : List Opc) : List (List Opc) :=
  let codes1 := if codes0 = [] then [Opc.mk Tag.equal 0 1 0 1] else codes0
  groupLoop ctx (trimLast ctx (trimHead ctx codes1)) []

/-- Decimal digits of a number. -/
def natChars (n : Nat) : List Char := Nat.toDigits 10 n

/-- `_format_range_unified(start, stop)`. -/
def formatRangeUnified (start stop : Nat) : List Char :=
  let beginning := start + 1
  let length := stop - start
  if length = 1 then natChars beginning
  else natChars (if length = 0 then beginning - 1 else beginning) ++
    ',' :: natChars length

/-- Python's `l[i1:i2]`. -/
def lineSlice (l : List Line) (i1 i2 : Nat) : List Line :=
  (l.drop i1).take (i2 - i1)

/-- The content lines one opcode contributes to a hunk: `' '`-prefixed
context from `a`, `'-'`-prefixed lines from `a`, `'+'`-prefixed lines from
`b`. -/
def opcodeLines (a b : List Line) (op : Opc) : List Line :=
  match op.tag with
  | Tag.equal => (lineSlice a op.i1 op.i2).map (fun line => ' ' :: line)
  | Tag.replace =>
    (lineSlice a op.i1 op.i2).map (fun line => '-' :: line) ++
      (lineSlice b op.j1 op.j2).map (fun line => '+' :: line)
  | Tag.delete => (lineSlice a op.i1 op.i2).map (fun line => '-' :: line)
  | Tag.insert => (lineSlice b op.j1 op.j2).map (fun line => '+' :: line)

/-- One group's output: the `@@ -r1 +r2 @@` header (with `lineterm=''`)
followed by each opcode's content lines. -/
def hunkLines (a b : List Line) (group : List Opc) : List Line :=
  match group with
  | [] => []
  | first :: rest =>
    let last := (first :: rest).getLastD first
    ('@' :: '@' :: ' ' :: '-' :: formatRangeUnified first.i1 last.i2 ++
      ' ' :: '+' :: formatRangeUnified first.j1 last.j2 ++ [' ', '@', '@']) ::
      (first :: rest).flatMap (opcodeLines a b)

/-- `difflib.unified_diff(a, b, fromfile, tofile, lineterm='')` as a list:
nothing at all when there are no groups; otherwise the two file headers
(no dates, no line terminator) followed by each group's hunk. -/
def unifiedDiff (a b : List Line) (fromfile tofile : List Char) : List Line :=
  match getGroupedOpcodes 3 (getOpcodes a b) with
  | [] => []
  | g :: gs =>
    ('-' :: '-' :: '-' :: ' ' :: fromfile) ::
      ('+' :: '+' :: '+' :: ' ' :: tofile) ::
      (g :: gs).flatMap (hunkLines a b)

/-- `str(rel_path)`: the components joined with `/` (POSIX). -/
def relStr : RelPath → List Char
  | [] => []
  | [n] => n
  | n :: m :: rest => n ++ '/' :: relStr (m :: rest)

/-- The error line built by `_compare_file_content`'s `except` arm:
`f"ERROR: File could not be compared - {str(e)}"`. -/
def errorLine (e : Name) : Line :=
  String.toList "ERROR: File could not be compared - " ++ e

/-- `ProjectComparator._compare_file_content` (lines 80-104), with the two
`open(...).readlines()` results passed in as `Except` values: any failure
of the first read (Python reads `file1` first, so its exception wins) or of
the second yields the single synthetic error line; otherwise the unified
diff of the two line lists, `None` when it is empty. -/
def compare_file_content (rel : RelPath) (r1 r2 : Except Name (List Nat)) :
    Option (List Line) :=
  match r1, r2 with
  | .ok b1, .ok b2 =>
    let d := unifiedDiff (pyReadLines b1) (pyReadLines b2)
      (String.toList "Project1/" ++ relStr rel)
      (String.toList "Project2/" ++ relStr rel)
    if 0 < d.length then some d else none
  | .error e, _ => some [errorLine e]
  | .ok _, .error e => some [errorLine e]

/-- Codepoint-lexicographic order on strings, Python's `str <=`. -/
def charsLe : List Char → List Char → Bool
  | [], _ => true
  | _ :: _, [] => false
  | c :: cs, d :: ds => if c = d then charsLe cs ds else decide (c < d)

/-- `sorted(common_files)` sorts the joined relative-path strings. -/
def relLe (p q : RelPath) : Bool := charsLe (relStr p) (relStr q)

/-- The result records of `ProjectComparator.compare` (lines 36-39):
`only_in_path1`, `only_in_path2` are Python sets (membership is all that
is used), `diff_files` a dict keyed by relative path in the sorted
iteration order of the common files. -/
structure ComparisonResult where
  only_in_path1 : List RelPath
  only_in_path2 : List RelPath
  diff_files : List (RelPath × List Line)

/-- `ProjectComparator.compare` (lines 106-127): scan both roots, set
differences and intersection on the relative-path sets, then per-file
content comparison over `sorted(common_files)`, recording only non-`None`
diffs. -/
def compare (cfg : FilterConfig) (t1 t2 : Forest) : ComparisonResult :=
  let files1 := get_relative_files cfg t1
  let files2 := get_relative_files cfg t2
  let common := files1.filter (fun p => decide (p ∈ files2))
  ComparisonResult.mk
    (files1.filter (fun p => decide (p ∉ files2)))
    (files2.filter (fun p => decide (p ∉ files1)))
    ((insertionSort relLe common).filterMap
      (fun p => (compare_file_content p (readBytes p t1) (readBytes p t2)).map
        (fun d => (p, d))))

/-- Modelled from the spec (claim C2): the spec asserts the script decodes
"permissively" with undecodable bytes *replaced* rather than raising, i.e.
`errors='replace'`: the same reader with U+FFFD substitution.  Used only to
compare against the script's actual `errors='ignore'` reader. -/
def specReadLinesReplace (bytes : List Nat) : List (List Char) :=
  splitAfterNl [] (univNewlines (utf8DecodeWith [Char.ofNat 0xFFFD] bytes))

/-- Modelled from the spec (claim C2): `_compare_file_content` as the spec
describes it, with replacement decoding instead of the script's
`errors='ignore'`. -/
def specCompareFileContentReplace (rel : RelPath) (r1 r2 : Except Name (List Nat)) :
    Option (List Line) :=
  match r1, r2 with
  | .ok b1, .ok b2 =>
    let d := unifiedDiff (specReadLinesReplace b1) (specReadLinesReplace b2)
      (String.toList "Project1/" ++ relStr rel)
      (String.toList "Project2/" ++ relStr rel)
    if 0 < d.length then some d else none
  | .error e, _ => some [errorLine e]
  | .ok _, .error e => some [errorLine e]

/-- Modelled from the spec (claim C6): "the extension used for filtering
equals the substring after the last `.` in the filename, lowercased, and a
filename containing no `.` has the empty extension".  Used only to compare
against the script's actual `extOf`. -/
def claimC6Ext (name : Name) : Name :=
  match rfindDot name with
  | none => []
  | some i => (name.drop (i + 1)).map asciiLower

/-- Proof auxiliary (for the identical-input analysis of the matcher): is
the element at index `i` of `a` autojunk-popular, as an element of `a`
itself?  Out-of-range indices count as popular (they start no run). -/
def popAt (a : List Line) (i : Nat) : Bool :=
  match a.get? i with
  | some x => isPopular a x
  | none => true

/-- Proof auxiliary: the length of the maximal run of non-popular elements
of `a` ending at index `i`. -/
def runLen (a : List Line) : Nat → Nat
  | 0 => if popAt a 0 then 0 else 1
  | i + 1 => if popAt a (i + 1) then 0 else runLen a i + 1

/-- Proof auxiliary: the invariant of the row dictionary before processing
row `i` of the matcher's dictionary phase on two copies of `a`: values are
bounded by the non-popular run ending at their column and by the previous
row's run, and the diagonal entry is exact. -/
def AccInv (a : List Line) (i : Nat) (p : Nat → Nat) : Prop :=
  (∀ j, p j ≤ runLen a j) ∧
  (∀ j, p j ≤ (if i = 0 then 0 else runLen a (i - 1))) ∧
  (i = 0 ∨ p (i - 1) = runLen a (i - 1))

/-- Proof auxiliary: the invariant of the running best before processing
row `i` on two copies of `a`: the best is diagonal, dominates every run
ending before `i`, fits in the processed prefix, and is the initial state
while empty. -/
def StInv (a : List Line) (i : Nat) (st : FlmBest) : Prop :=
  st.besti = st.bestj ∧
  (∀ k < i, runLen a k ≤ st.bestsize) ∧
  (st.bestsize ≠ 0 → st.besti + st.bestsize ≤ i) ∧
  (st.bestsize = 0 → st.besti = 0 ∧ st.bestj = 0)

section FilterLemmas

/-- `rfindDot` misses exactly when there is no dot. -/
theorem rfindDot_eq_none {nm : Name} : rfindDot nm = none ↔ '.' ∉ nm := by
  induction nm with
  | nil => simp [rfindDot]
  | cons c rest ih =>
    rw [rfindDot]
    cases h : rfindDot rest with
    | some i =>
      have hmem : '.' ∈ rest := by
        by_contra hc
        rw [ih.mpr hc] at h
        exact Option.noConfusion h
      simp [hmem]
    | none =>
      have hnot : '.' ∉ rest := ih.mp h
      by_cases hc : c = '.'
      · subst hc; simp
      · simp [hc, hnot, eq_comm]

/-- `rfindDot` over an append: the right part wins when it has a dot. -/
theorem rfindDot_append (xs ys : Name) :
    rfindDot (xs ++ ys) =
      match rfindDot ys with
      | some j => some (xs.length + j)
      | none => rfindDot xs := by
  induction xs with
  | nil => cases h : rfindDot ys <;> simp [h, rfindDot]
  | cons c xs' ih =>
    cases h : rfindDot ys with
    | some j =>
      have ih' : rfindDot (xs' ++ ys) = some (xs'.length + j) := by rw [ih, h]
      show rfindDot (c :: (xs' ++ ys)) = some ((c :: xs').length + j)
      rw [rfindDot, ih']
      show some (xs'.length + j + 1) = some (xs'.length + 1 + j)
      congr 1
      omega
    | none =>
      have ih' : rfindDot (xs' ++ ys) = rfindDot xs' := by rw [ih, h]
      show rfindDot (c :: (xs' ++ ys)) = rfindDot (c :: xs')
      rw [rfindDot, ih', rfindDot]

/-- The index `rfindDot` returns carries a dot. -/
theorem rfindDot_get {nm : Name} {i : Nat} (h : rfindDot nm = some i) :
    nm.get? i = some '.' := by
  induction nm generalizing i with
  | nil => simp [rfindDot] at h
  | cons c rest ih =>
    rw [rfindDot] at h
    cases hr : rfindDot rest with
    | some k =>
      rw [hr] at h
      cases h
      simpa using ih hr
    | none =>
      rw [hr] at h
      by_cases hc : c = '.'
      · rw [if_pos hc] at h
        cases h
        simp [hc]
      · rw [if_neg hc] at h
        exact Option.noConfusion h

/-- Lowering keeps a dot a dot. -/
theorem asciiLower_dot : asciiLower '.' = '.' := by decide

/-- The script's extension is empty or starts with a (lowercased) dot. -/
theorem extOf_empty_or_dot (nm : Name) :
    extOf nm = [] ∨ (extOf nm).head? = some '.' := by
  unfold extOf pathSuffix
  cases h : rfindDot nm with
  | none => simp
  | some i =>
    by_cases hi : 0 < i ∧ i < nm.length - 1
    · right
      have hget := rfindDot_get h
      have hdrop : (nm.drop i).head? = some '.' := by
        rw [List.head?_drop, ← List.get?_eq_getElem?]
        exact hget
      show (List.map asciiLower
          (if 0 < i ∧ i < nm.length - 1 then nm.drop i else [])).head? = some '.'
      rw [if_pos hi, List.head?_map, hdrop]
      simp [asciiLower_dot]
    · simp [hi]

/-- A name without a dot has empty extension. -/
theorem extOf_of_no_dot {nm : Name} (h : '.' ∉ nm) : extOf nm = [] := by
  have hr : rfindDot nm = none := rfindDot_eq_none.mpr h
  unfold extOf pathSuffix
  rw [hr]
  rfl

/-- A name whose only dot is leading (".gitignore") has empty extension. -/
theorem extOf_leading_dot {t : Name} (h : '.' ∉ t) : extOf ('.' :: t) = [] := by
  have hr : rfindDot ('.' :: t) = some 0 := by
    rw [rfindDot, rfindDot_eq_none.mpr h]
    simp
  unfold extOf pathSuffix
  rw [hr]
  simp

/-- A name ending in a dot ("file.") has empty extension. -/
theorem extOf_trailing_dot (nm : Name) : extOf (nm ++ ['.']) = [] := by
  have hr : rfindDot (nm ++ ['.']) = some nm.length := by
    rw [rfindDot_append]
    simp [rfindDot]
  unfold extOf pathSuffix
  rw [hr]
  show List.map asciiLower
      (if 0 < nm.length ∧ nm.length < (nm ++ ['.']).length - 1
       then (nm ++ ['.']).drop nm.length else []) = []
  have hneg : ¬(0 < nm.length ∧ nm.length < (nm ++ ['.']).length - 1) := by
    simp only [List.length_append, List.length_cons, List.length_nil]
    omega
  rw [if_neg hneg]
  rfl

/-- A name with an interior last dot gets the lowercased dot-prefixed suffix. -/
theorem extOf_interior_dot {pre post : Name} (h1 : pre ≠ []) (h2 : post ≠ [])
    (h3 : '.' ∉ post) :
    extOf (pre ++ '.' :: post) = '.' :: post.map asciiLower := by
  have hr : rfindDot (pre ++ '.' :: post) = some pre.length := by
    rw [rfindDot_append, rfindDot, rfindDot_eq_none.mpr h3]
    simp
  have hcond : 0 < pre.length ∧ pre.length < (pre ++ '.' :: post).length - 1 := by
    constructor
    · exact List.length_pos.mpr h1
    · have : 0 < post.length := List.length_pos.mpr h2
      simp only [List.length_append, List.length_cons]
      omega
  unfold extOf pathSuffix
  rw [hr]
  show List.map asciiLower
      (if 0 < pre.length ∧ pre.length < (pre ++ '.' :: post).length - 1
       then (pre ++ '.' :: post).drop pre.length else []) = '.' :: post.map asciiLower
  rw [if_pos hcond, List.drop_left, List.map_cons, asciiLower_dot]

/-- Full characterization of survival through `_should_ignore`: no ignore
pattern matches, the allow-list test passes, and the extension is not
ignored. -/
theorem should_ignore_eq_false_iff (cfg : FilterConfig) (name : Name) :
    should_ignore cfg name = false ↔
      (∀ pat ∈ cfg.ignore_files, fnmatchMatch pat name = false) ∧
      (cfg.only_ext = [] ∨ extOf name ∈ cfg.only_ext) ∧
      extOf name ∉ cfg.ignore_ext := by
  unfold should_ignore
  by_cases h1 : (cfg.ignore_files.any fun pat => fnmatchMatch pat name) = true
  · rw [if_pos h1]
    simp only [Bool.true_eq_false, false_iff]
    rintro ⟨hall, -, -⟩
    rw [List.any_eq_true] at h1
    obtain ⟨pat, hmem, hmatch⟩ := h1
    rw [hall pat hmem] at hmatch
    exact Bool.noConfusion hmatch
  · rw [if_neg h1]
    by_cases h2 : cfg.only_ext ≠ [] ∧ extOf name ∉ cfg.only_ext
    · rw [if_pos h2]
      simp only [Bool.true_eq_false, false_iff]
      rintro ⟨-, honly, -⟩
      rcases honly with he | hin
      · exact h2.1 he
      · exact h2.2 hin
    · rw [if_neg h2]
      by_cases h3 : extOf name ∈ cfg.ignore_ext
      · rw [if_pos h3]
        simp only [Bool.true_eq_false, false_iff]
        rintro ⟨-, -, hni⟩
        exact hni h3
      · rw [if_neg h3]
        refine iff_of_true rfl ⟨?_, ?_, h3⟩
        · intro pat hmem
          by_contra hb
          apply h1
          rw [List.any_eq_true]
          refine ⟨pat, hmem, ?_⟩
          revert hb
          cases fnmatchMatch pat name <;> simp
        · by_cases he : cfg.only_ext = []
          · exact Or.inl he
          · right
            by_contra hn
            exact h2 ⟨he, hn⟩

/-- C5: for every FilterConfig with empty `onlyExtensions`, a file passes
the filter iff its extension is not in `ignoreExtensions` and its bare
filename matches no pattern in `ignoreFilePatterns`. -/
theorem C5_empty_only_ext (cfg : FilterConfig) (name : Name)
    (h : cfg.only_ext = []) :
    should_ignore cfg name = false ↔
      extOf name ∉ cfg.ignore_ext ∧
        ∀ pat ∈ cfg.ignore_files, fnmatchMatch pat name = false := by
  rw [should_ignore_eq_false_iff]
  constructor
  · rintro ⟨hpat, -, hni⟩
    exact ⟨hni, hpat⟩
  · rintro ⟨hni, hpat⟩
    exact ⟨hpat, Or.inl h, hni⟩

/-- C5 witness: a concrete config with empty allow-list. -/
theorem C5_empty_only_ext_witness :
    (FilterConfig.mk [".log".toList] [] [] ["*.tmp".toList]).only_ext = [] ∧
    (should_ignore ⟨[".log".toList], [], [], ["*.tmp".toList]⟩ "a.txt".toList = false ↔
      extOf "a.txt".toList ∉ [".log".toList] ∧
        ∀ pat ∈ ["*.tmp".toList], fnmatchMatch pat "a.txt".toList = false) :=
  ⟨rfl, C5_empty_only_ext ⟨[".log".toList], [], [], ["*.tmp".toList]⟩ "a.txt".toList rfl⟩

/-- C1 counterexample: with `onlyExtensions = {".py"}` and
`ignoreExtensions = {".py"}` the file `a.py` has its extension in the
allow-list and matches no ignore pattern, yet `_should_ignore` still
excludes it — the allow-list does not override `ignoreExtensions`. -/
theorem C1_counterexample :
    extOf "a.py".toList ∈ [".py".toList] ∧
    (∀ pat ∈ ([] : List Name), fnmatchMatch pat "a.py".toList = false) ∧
    should_ignore ⟨[".py".toList], [".py".toList], [], []⟩ "a.py".toList = true := by
  refine ⟨by decide, by simp, by decide⟩

/-- C1 (amended): with a non-empty `onlyExtensions`, a file passes the
filter iff its extension is in `onlyExtensions` AND not in
`ignoreExtensions` AND its bare filename matches no ignore pattern. -/
theorem C1_amended_nonempty_only_ext (cfg : FilterConfig) (name : Name)
    (h : cfg.only_ext ≠ []) :
    should_ignore cfg name = false ↔
      extOf name ∈ cfg.only_ext ∧ extOf name ∉ cfg.ignore_ext ∧
        ∀ pat ∈ cfg.ignore_files, fnmatchMatch pat name = false := by
  rw [should_ignore_eq_false_iff]
  constructor
  · rintro ⟨hpat, honly, hni⟩
    rcases honly with he | hin
    · exact absurd he h
    · exact ⟨hin, hni, hpat⟩
  · rintro ⟨hin, hni, hpat⟩
    exact ⟨hpat, Or.inr hin, hni⟩

/-- C1 amended witness: a concrete config with a non-empty allow-list. -/
theorem C1_amended_nonempty_only_ext_witness :
    (FilterConfig.mk [] [".py".toList] [] []).only_ext ≠ [] ∧
    (should_ignore ⟨[], [".py".toList], [], []⟩ "a.py".toList = false ↔
      extOf "a.py".toList ∈ [".py".toList] ∧ extOf "a.py".toList ∉ ([] : List Name) ∧
        ∀ pat ∈ ([] : List Name), fnmatchMatch pat "a.py".toList = false) :=
  ⟨by decide, C1_amended_nonempty_only_ext ⟨[], [".py".toList], [], []⟩ "a.py".toList (by decide)⟩

/-- C6 counterexample: the claim's extension function (substring after the
last dot, lowercased) gives `"gitignore"` on `".gitignore"`, but the code's
`Path.suffix.lower()` gives the empty string; they also disagree on `a.py`
(`".py"` with the dot vs `"py"` without). -/
theorem C6_counterexample :
    extOf ".gitignore".toList = [] ∧
    claimC6Ext ".gitignore".toList = "gitignore".toList ∧
    extOf ".gitignore".toList ≠ claimC6Ext ".gitignore".toList ∧
    extOf "a.py".toList = ".py".toList ∧
    claimC6Ext "a.py".toList = "py".toList := by
  refine ⟨by decide, by decide, by decide, by decide, by decide⟩

/-- C6 (amended): the extension used for filtering is `Path.suffix`
lowercased — the substring from the last `.` onwards (dot included) when
that dot is interior; it is empty when the name has no dot, when the only
dot is leading (".gitignore"), and when the dot is final ("file."). -/
theorem C6_amended_suffix_semantics (pre post nm : Name)
    (h1 : pre ≠ []) (h2 : post ≠ []) (h3 : '.' ∉ post) (h4 : '.' ∉ nm) :
    extOf (pre ++ '.' :: post) = '.' :: post.map asciiLower ∧
    extOf nm = [] ∧
    extOf ('.' :: nm) = [] ∧
    extOf (nm ++ ['.']) = [] :=
  ⟨extOf_interior_dot h1 h2 h3, extOf_of_no_dot h4,
    extOf_leading_dot h4, extOf_trailing_dot nm⟩

/-- C6 amended witness: concrete names for each of the four shapes. -/
theorem C6_amended_suffix_semantics_witness :
    ("a".toList ≠ [] ∧ "Py".toList ≠ [] ∧ '.' ∉ "Py".toList ∧ '.' ∉ "ab".toList) ∧
    (extOf ("a".toList ++ '.' :: "Py".toList) = '.' :: ("Py".toList).map asciiLower ∧
     extOf "ab".toList = [] ∧
     extOf ('.' :: "ab".toList) = [] ∧
     extOf ("ab".toList ++ ['.']) = []) :=
  ⟨⟨by decide, by decide, by decide, by decide⟩,
    C6_amended_suffix_semantics "a".toList "Py".toList "ab".toList
      (by decide) (by decide) (by decide) (by decide)⟩

/-- C10: extension filtering compares configured strings verbatim with the
lowercased dot-prefixed suffix: a non-empty configured entry that does not
start with `.` can never equal any file's extension, and a file whose name
has no dot or only a leading dot has the empty extension (so only an
empty-string entry can match it). -/
theorem C10_verbatim_dot_suffix (e name : Name)
    (h1 : e ≠ []) (h2 : e.head? ≠ some '.') :
    extOf name ≠ e ∧
      (('.' ∉ name ∨ ∃ t, name = '.' :: t ∧ '.' ∉ t) → extOf name = []) := by
  constructor
  · intro he
    rcases extOf_empty_or_dot name with h0 | hd
    · subst he
      exact h1 h0
    · subst he
      exact h2 hd
  · rintro (hno | ⟨t, rfl, ht⟩)
    · exact extOf_of_no_dot hno
    · exact extOf_leading_dot ht

/-- C10 witness: entry `"py"` (no dot) against `a.py`, and the dotless /
leading-dot names. -/
theorem C10_verbatim_dot_suffix_witness :
    ("py".toList ≠ [] ∧ ("py".toList).head? ≠ some '.') ∧
    (extOf "a.py".toList ≠ "py".toList ∧
      (('.' ∉ "a.py".toList ∨ ∃ t, "a.py".toList = '.' :: t ∧ '.' ∉ t) →
        extOf "a.py".toList = [])) :=
  ⟨⟨by decide, by decide⟩,
    C10_verbatim_dot_suffix "py".toList "a.py".toList (by decide) (by decide)⟩

end FilterLemmas

section ScanLemmas

/-- Every path produced by the walk extends the prefix by a non-empty
suffix whose directory components all escaped `ignore_dirs`. -/
theorem walkFiles_mem_structure (cfg : FilterConfig) (t : Forest) :
    ∀ (pre : RelPath) (p : RelPath),
      p ∈ walkFiles cfg pre t →
      ∃ suf, suf ≠ [] ∧ p = pre ++ suf ∧ ∀ d ∈ suf.dropLast, d ∉ cfg.ignore_dirs := by
  induction t with
  | nil =>
    intro pre p h
    simp [walkFiles] at h
  | file n c rest ih =>
    intro pre p h
    rw [walkFiles] at h
    rcases List.mem_append.mp h with h1 | h2
    · by_cases hig : should_ignore cfg n = true
      · rw [if_pos hig] at h1
        exact absurd h1 (List.not_mem_nil p)
      · rw [if_neg hig] at h1
        rcases List.mem_singleton.mp h1 with rfl
        exact ⟨[n], by simp, rfl, by simp⟩
    · exact ih pre p h2
  | symlinkFile n c rest ih =>
    intro pre p h
    rw [walkFiles] at h
    rcases List.mem_append.mp h with h1 | h2
    · by_cases hig : should_ignore cfg n = true
      · rw [if_pos hig] at h1
        exact absurd h1 (List.not_mem_nil p)
      · rw [if_neg hig] at h1
        rcases List.mem_singleton.mp h1 with rfl
        exact ⟨[n], by simp, rfl, by simp⟩
    · exact ih pre p h2
  | special n rest ih =>
    intro pre p h
    rw [walkFiles] at h
    rcases List.mem_append.mp h with h1 | h2
    · by_cases hig : should_ignore cfg n = true
      · rw [if_pos hig] at h1
        exact absurd h1 (List.not_mem_nil p)
      · rw [if_neg hig] at h1
        rcases List.mem_singleton.mp h1 with rfl
        exact ⟨[n], by simp, rfl, by simp⟩
    · exact ih pre p h2
  | dir n ch rest ihch ihrest =>
    intro pre p h
    rw [walkFiles] at h
    rcases List.mem_append.mp h with h1 | h2
    · by_cases hd : n ∈ cfg.ignore_dirs
      · rw [if_pos hd] at h1
        exact absurd h1 (List.not_mem_nil p)
      · rw [if_neg hd] at h1
        obtain ⟨suf, hne, hp, hall⟩ := ihch (pre ++ [n]) p h1
        refine ⟨n :: suf, by simp, ?_, ?_⟩
        · rw [hp, List.append_assoc]
          rfl
        · intro d hdmem
          rw [List.dropLast_cons_of_ne_nil hne] at hdmem
          rcases List.mem_cons.mp hdmem with rfl | hdm
          · exact hd
          · exact hall d hdm
    · exact ihrest pre p h2
  | symlinkDir n ch rest ihch ihrest =>
    intro pre p h
    rw [walkFiles] at h
    exact ihrest pre p h

/-- C7: for every directory whose bare name is in `ignoreDirectoryNames`,
at any depth, the scan does not descend into it: every directory component
of every returned relative path is outside `ignoreDirectoryNames`, so no
file beneath an ignored directory ever appears. -/
theorem C7_ignored_dirs_pruned (cfg : FilterConfig) (t : Forest) (p : RelPath)
    (h : p ∈ get_relative_files cfg t) :
    ∀ d ∈ p.dropLast, d ∉ cfg.ignore_dirs := by
  obtain ⟨suf, hne, hp, hall⟩ := walkFiles_mem_structure cfg t _ _ h
  rw [List.nil_append] at hp
  rw [hp]
  exact hall

/-- C7 witness: `sub/keep.py` survives while the `skip` directory's file
is pruned; the surviving path's directory component is not ignored. -/
theorem C7_ignored_dirs_pruned_witness :
    ["sub".toList, "keep.py".toList] ∈
      get_relative_files ⟨[], [], ["skip".toList], []⟩
        (.dir "sub".toList (.file "keep.py".toList [] .nil)
          (.dir "skip".toList (.file "x.py".toList [] .nil) .nil)) ∧
    ∀ d ∈ (["sub".toList, "keep.py".toList] : RelPath).dropLast,
      d ∉ ["skip".toList] :=
  ⟨by decide,
    C7_ignored_dirs_pruned ⟨[], [], ["skip".toList], []⟩
      (.dir "sub".toList (.file "keep.py".toList [] .nil)
        (.dir "skip".toList (.file "x.py".toList [] .nil) .nil))
      ["sub".toList, "keep.py".toList] (by decide)⟩

/-- C8 counterexample: a symlink to a regular file DOES appear in the scan
result — `os.walk` places every non-directory entry, symlinks included, in
`filenames`, and `_get_relative_files` keeps whatever passes the filename
filter. -/
theorem C8_counterexample :
    ["a.txt".toList] ∈
      get_relative_files ⟨[], [], [], []⟩ (.symlinkFile "a.txt".toList [] .nil) := by
  decide

/-- C8 (amended): symlinked directories are never descended into — at any
position of the walk they contribute nothing — while a symlink to a
regular file is treated exactly like a regular file (goes through the
filename filter and into the result), and a device/other special entry is
likewise handed to the filename filter, not skipped. -/
theorem C8_amended_symlink_handling (cfg : FilterConfig)
    (pre : RelPath) (n : Name) (c : List Nat) (ch rest : Forest) :
    walkFiles cfg pre (.symlinkDir n ch rest) = walkFiles cfg pre rest ∧
    walkFiles cfg pre (.symlinkFile n c rest) = walkFiles cfg pre (.file n c rest) ∧
    walkFiles cfg pre (.special n rest) =
      (if should_ignore cfg n then [] else [pre ++ [n]]) ++ walkFiles cfg pre rest :=
  ⟨rfl, rfl, rfl⟩

end ScanLemmas

section CompareLemmas

/-- Insertion keeps exactly the old elements plus the new one. -/
theorem mem_insertSorted {le : α → α → Bool} {x y : α} {l : List α} :
    y ∈ insertSorted le x l ↔ y = x ∨ y ∈ l := by
  induction l with
  | nil => simp [insertSorted]
  | cons z zs ih =>
    rw [insertSorted]
    by_cases h : le x z = true
    · simp [h]
    · simp only [if_neg h, List.mem_cons, ih]
      tauto

/-- Sorting keeps exactly the old elements. -/
theorem mem_insertionSort {le : α → α → Bool} {y : α} {l : List α} :
    y ∈ insertionSort le l ↔ y ∈ l := by
  induction l with
  | nil => simp [insertionSort]
  | cons z zs ih =>
    rw [insertionSort]
    rw [mem_insertSorted]
    simp [ih]

/-- Membership in `compare`'s `diff_files`: the path survived both scans
and its content comparison produced exactly that record. -/
theorem compare_diff_files_mem {cfg : FilterConfig} {t1 t2 : Forest}
    {p : RelPath} {d : List Line} :
    (p, d) ∈ (compare cfg t1 t2).diff_files ↔
      p ∈ get_relative_files cfg t1 ∧ p ∈ get_relative_files cfg t2 ∧
        compare_file_content p (readBytes p t1) (readBytes p t2) = some d := by
  unfold compare
  simp only [List.mem_filterMap, mem_insertionSort, List.mem_filter,
    decide_eq_true_eq, Option.map_eq_some']
  constructor
  · rintro ⟨q, ⟨hq1, hq2⟩, x, hx, hqx⟩
    cases hqx
    exact ⟨hq1, hq2, hx⟩
  · rintro ⟨h1, h2, hcc⟩
    exact ⟨p, ⟨h1, h2⟩, d, hcc, rfl⟩

/-- Membership in `only_in_path1`. -/
theorem compare_only1_mem {cfg : FilterConfig} {t1 t2 : Forest} {p : RelPath} :
    p ∈ (compare cfg t1 t2).only_in_path1 ↔
      p ∈ get_relative_files cfg t1 ∧ p ∉ get_relative_files cfg t2 := by
  unfold compare
  simp [List.mem_filter]

/-- Membership in `only_in_path2`. -/
theorem compare_only2_mem {cfg : FilterConfig} {t1 t2 : Forest} {p : RelPath} :
    p ∈ (compare cfg t1 t2).only_in_path2 ↔
      p ∈ get_relative_files cfg t2 ∧ p ∉ get_relative_files cfg t1 := by
  unfold compare
  simp [List.mem_filter]

/-- C4: for every pair of scanned trees, `onlyInLeft`, `onlyInRight` and
the key set of `differing` are pairwise disjoint. -/
theorem C4_pairwise_disjoint (cfg : FilterConfig) (t1 t2 : Forest) (p : RelPath) :
    (p ∈ (compare cfg t1 t2).only_in_path1 →
      p ∉ (compare cfg t1 t2).only_in_path2) ∧
    (∀ d, (p, d) ∈ (compare cfg t1 t2).diff_files →
      p ∉ (compare cfg t1 t2).only_in_path1 ∧
      p ∉ (compare cfg t1 t2).only_in_path2) := by
  constructor
  · intro h1 h2
    exact (compare_only2_mem.mp h2).2 (compare_only1_mem.mp h1).1
  · intro d hd
    obtain ⟨hf1, hf2, -⟩ := compare_diff_files_mem.mp hd
    constructor
    · intro h1
      exact (compare_only1_mem.mp h1).2 hf2
    · intro h2
      exact (compare_only2_mem.mp h2).2 hf1

/-- C4 witness: a pair of concrete trees exercising all three categories. -/
theorem C4_pairwise_disjoint_witness :
    (["only1.txt".toList] ∈
        (compare ⟨[], [], [], []⟩
          (.file ("x.txt".toList) [104, 105, 10]
            (.file ("only1.txt".toList) [97] .nil))
          (.file ("x.txt".toList) [104, 106, 10]
            (.file ("only2.txt".toList) [98] .nil))).only_in_path1) ∧
    ["only1.txt".toList] ∉
        (compare ⟨[], [], [], []⟩
          (.file ("x.txt".toList) [104, 105, 10]
            (.file ("only1.txt".toList) [97] .nil))
          (.file ("x.txt".toList) [104, 106, 10]
            (.file ("only2.txt".toList) [98] .nil))).only_in_path2 :=
  ⟨by decide,
    (C4_pairwise_disjoint ⟨[], [], [], []⟩
      (.file ("x.txt".toList) [104, 105, 10]
        (.file ("only1.txt".toList) [97] .nil))
      (.file ("x.txt".toList) [104, 106, 10]
        (.file ("only2.txt".toList) [98] .nil))
      ["only1.txt".toList]).1 (by decide)⟩

/-- C3: when reading either side of a common path fails, that path's
record is the single synthetic error line, the path is in neither
`only_in` set, and (the comparison being a pure per-file map over the
common set) every other common file keeps its own record. -/
theorem C3_read_failure_error_record (cfg : FilterConfig) (t1 t2 : Forest)
    (p : RelPath) (e : Name)
    (h1 : p ∈ get_relative_files cfg t1)
    (h2 : p ∈ get_relative_files cfg t2)
    (he : readBytes p t1 = .error e ∨
      ((∃ b, readBytes p t1 = .ok b) ∧ readBytes p t2 = .error e)) :
    (p, [errorLine e]) ∈ (compare cfg t1 t2).diff_files ∧
    (∀ d, (p, d) ∈ (compare cfg t1 t2).diff_files → d = [errorLine e]) ∧
    p ∉ (compare cfg t1 t2).only_in_path1 ∧
    p ∉ (compare cfg t1 t2).only_in_path2 := by
  have hcc : compare_file_content p (readBytes p t1) (readBytes p t2) =
      some [errorLine e] := by
    rcases he with hl | ⟨⟨b, hb⟩, hr⟩
    · rw [hl]
      cases readBytes p t2 <;> rfl
    · rw [hb, hr]
      rfl
  refine ⟨?_, ?_, ?_, ?_⟩
  · exact compare_diff_files_mem.mpr ⟨h1, h2, hcc⟩
  · intro d hd
    obtain ⟨-, -, hcd⟩ := compare_diff_files_mem.mp hd
    rw [hcc] at hcd
    exact (Option.some_inj.mp hcd).symm
  · intro h
    exact (compare_only1_mem.mp h).2 h2
  · intro h
    exact (compare_only2_mem.mp h).2 h1

/-- C3 witness: a special (unreadable) entry present in both trees. -/
theorem C3_read_failure_error_record_witness :
    (["dev".toList] ∈
        get_relative_files ⟨[], [], [], []⟩ (.special ("dev".toList) .nil) ∧
      readBytes ["dev".toList] (.special ("dev".toList) .nil) =
        .error ("OSError".toList)) ∧
    (["dev".toList], [errorLine ("OSError".toList)]) ∈
      (compare ⟨[], [], [], []⟩ (.special ("dev".toList) .nil)
        (.special ("dev".toList) .nil)).diff_files :=
  ⟨⟨by decide, rfl⟩,
    (C3_read_failure_error_record ⟨[], [], [], []⟩
      (.special ("dev".toList) .nil) (.special ("dev".toList) .nil)
      ["dev".toList] ("OSError".toList) (by decide) (by decide)
      (Or.inl rfl)).1⟩

end CompareLemmas

section DiffLineShape

/-- Every content line an opcode contributes carries a `' '`, `'-'` or
`'+'` prefix. -/
theorem opcodeLines_head {a b : List Line} {op : Opc} {l : Line}
    (h : l ∈ opcodeLines a b op) :
    l.head? = some ' ' ∨ l.head? = some '-' ∨ l.head? = some '+' := by
  obtain ⟨tag, i1, i2, j1, j2⟩ := op
  unfold opcodeLines at h
  cases tag with
  | equal =>
    obtain ⟨line, -, rfl⟩ := List.mem_map.mp h
    exact Or.inl rfl
  | replace =>
    rcases List.mem_append.mp h with h1 | h2
    · obtain ⟨line, -, rfl⟩ := List.mem_map.mp h1
      exact Or.inr (Or.inl rfl)
    · obtain ⟨line, -, rfl⟩ := List.mem_map.mp h2
      exact Or.inr (Or.inr rfl)
  | delete =>
    obtain ⟨line, -, rfl⟩ := List.mem_map.mp h
    exact Or.inr (Or.inl rfl)
  | insert =>
    obtain ⟨line, -, rfl⟩ := List.mem_map.mp h
    exact Or.inr (Or.inr rfl)

/-- Every line of a hunk starts with `'@'`, `' '`, `'-'` or `'+'`. -/
theorem hunkLines_head {a b : List Line} {group : List Opc} {l : Line}
    (h : l ∈ hunkLines a b group) :
    l.head? = some '@' ∨ l.head? = some ' ' ∨ l.head? = some '-' ∨
      l.head? = some '+' := by
  unfold hunkLines at h
  cases group with
  | nil => exact absurd h (List.not_mem_nil l)
  | cons first rest =>
    rcases List.mem_cons.mp h with rfl | h2
    · exact Or.inl rfl
    · obtain ⟨op, -, hop⟩ := List.mem_flatMap.mp h2
      rcases opcodeLines_head hop with h | h | h
      · exact Or.inr (Or.inl h)
      · exact Or.inr (Or.inr (Or.inl h))
      · exact Or.inr (Or.inr (Or.inr h))

/-- Every line `unified_diff` emits starts with `'-'`, `'+'`, `'@'` or
`' '` (file headers, hunk headers, content lines). -/
theorem unifiedDiff_head {a b : List Line} {f1 f2 : List Char} {l : Line}
    (h : l ∈ unifiedDiff a b f1 f2) :
    l.head? = some '-' ∨ l.head? = some '+' ∨ l.head? = some '@' ∨
      l.head? = some ' ' := by
  unfold unifiedDiff at h
  cases hg : getGroupedOpcodes 3 (getOpcodes a b) with
  | nil =>
    rw [hg] at h
    exact absurd h (List.not_mem_nil l)
  | cons g gs =>
    rw [hg] at h
    rcases List.mem_cons.mp h with rfl | h
    · exact Or.inl rfl
    rcases List.mem_cons.mp h with rfl | h
    · exact Or.inr (Or.inl rfl)
    obtain ⟨group, -, hgp⟩ := List.mem_flatMap.mp h
    rcases hunkLines_head hgp with h | h | h | h
    · exact Or.inr (Or.inr (Or.inl h))
    · exact Or.inr (Or.inr (Or.inr h))
    · exact Or.inl h
    · exact Or.inr (Or.inl h)

end DiffLineShape

section PermissiveDecoding

/-- An invalid lead byte (a stray continuation byte `0x80`-`0xC1`, or
`0xF5`-`0xFF`) produces exactly the error-policy output and decoding
resumes at the next byte. -/
theorem utf8DecodeWith_invalid_lead (repl : List Char) (byte : Nat)
    (bs : List Nat) (hb : (0x80 ≤ byte ∧ byte ≤ 0xC1) ∨ 0xF5 ≤ byte) :
    utf8DecodeWith repl (byte :: bs) = repl ++ utf8DecodeWith repl bs := by
  have h1 : ¬byte ≤ 0x7F := by omega
  have h2 : ¬(0xC2 ≤ byte ∧ byte ≤ 0xDF) := by omega
  have h3 : ¬(0xE0 ≤ byte ∧ byte ≤ 0xEF) := by omega
  have h4 : ¬(0xF0 ≤ byte ∧ byte ≤ 0xF4) := by omega
  cases bs with
  | nil =>
    conv_lhs => rw [utf8DecodeWith]
    rw [if_neg h1, if_neg h2, if_neg h3, if_neg h4]
  | cons c1 bs1 =>
    cases bs1 with
    | nil =>
      conv_lhs => rw [utf8DecodeWith]
      rw [if_neg h1, if_neg h2, if_neg h3, if_neg h4]
    | cons c2 bs2 =>
      cases bs2 with
      | nil =>
        conv_lhs => rw [utf8DecodeWith]
        rw [if_neg h1, if_neg h2, if_neg h3, if_neg h4]
      | cons c3 bs3 =>
        conv_lhs => rw [utf8DecodeWith]
        rw [if_neg h1, if_neg h2, if_neg h3, if_neg h4]

/-- C2 counterexample: the script decodes with `errors='ignore'`, not the
spec's "replaced": the byte `0xFF` is dropped, not turned into U+FFFD, and
observably so — two files differing only in an undecodable byte compare as
identical, while the spec's replacement policy reports a difference. -/
theorem C2_counterexample :
    utf8DecodeWith [] [255] = [] ∧
    utf8DecodeWith [Char.ofNat 0xFFFD] [255] = [Char.ofNat 0xFFFD] ∧
    compare_file_content ["x.txt".toList] (.ok [65, 255, 10]) (.ok [65, 10]) =
      none ∧
    specCompareFileContentReplace ["x.txt".toList]
      (.ok [65, 255, 10]) (.ok [65, 10]) ≠ none := by
  refine ⟨rfl, rfl, by decide, by decide⟩

/-- C2 (amended): reading is line-oriented with permissive decoding, but
undecodable bytes are dropped (`errors='ignore'`), not replaced: an
invalid lead byte decodes to nothing and decoding continues; decoding
never raises, so when both reads succeed the result is an ordinary line
diff — every line of it is a header or prefixed content line, and the
synthetic read-error record never occurs. -/
theorem C2_amended_ignore_decoding (byte : Nat) (bs : List Nat)
    (rel : RelPath) (b1 b2 : List Nat) (ls : List Line) (l : Line) (e : Name)
    (hb : (0x80 ≤ byte ∧ byte ≤ 0xC1) ∨ 0xF5 ≤ byte)
    (hcc : compare_file_content rel (.ok b1) (.ok b2) = some ls)
    (hl : l ∈ ls) :
    utf8DecodeWith [] (byte :: bs) = utf8DecodeWith [] bs ∧
    (l.head? = some '-' ∨ l.head? = some '+' ∨ l.head? = some '@' ∨
      l.head? = some ' ') ∧
    ls ≠ [errorLine e] := by
  have hdrop : utf8DecodeWith [] (byte :: bs) = utf8DecodeWith [] bs := by
    rw [utf8DecodeWith_invalid_lead [] byte bs hb]
    exact List.nil_append _
  have hls : ls = unifiedDiff (pyReadLines b1) (pyReadLines b2)
      (String.toList "Project1/" ++ relStr rel)
      (String.toList "Project2/" ++ relStr rel) := by
    have hcc' :
        (if 0 < (unifiedDiff (pyReadLines b1) (pyReadLines b2)
            (String.toList "Project1/" ++ relStr rel)
            (String.toList "Project2/" ++ relStr rel)).length then
          some (unifiedDiff (pyReadLines b1) (pyReadLines b2)
            (String.toList "Project1/" ++ relStr rel)
            (String.toList "Project2/" ++ relStr rel))
         else none) = some ls := hcc
    by_cases hd : 0 < (unifiedDiff (pyReadLines b1) (pyReadLines b2)
        (String.toList "Project1/" ++ relStr rel)
        (String.toList "Project2/" ++ relStr rel)).length
    · rw [if_pos hd] at hcc'
      exact (Option.some_inj.mp hcc').symm
    · rw [if_neg hd] at hcc'
      exact absurd hcc' (Option.noConfusion)
  have hhead := unifiedDiff_head (hls ▸ hl)
  refine ⟨hdrop, hhead, ?_⟩
  intro hcontr
  have hE : l.head? = some 'E' := by
    rw [hcontr] at hl
    rcases List.mem_singleton.mp hl with rfl
    rfl
  rcases hhead with h | h | h | h <;> rw [hE] at h <;> exact absurd h (by decide)

/-- C2 amended witness: the files "A\xFF\n" and "B\n" read successfully and
produce an ordinary five-line diff; the `0xFF` byte is dropped. -/
theorem C2_amended_ignore_decoding_witness :
    (((0x80 ≤ 255 ∧ 255 ≤ 0xC1) ∨ 0xF5 ≤ 255) ∧
      compare_file_content ["x.txt".toList] (.ok [65, 255, 10]) (.ok [66, 10]) =
        some [String.toList "--- Project1/x.txt",
          String.toList "+++ Project2/x.txt", String.toList "@@ -1 +1 @@",
          String.toList "-A\n", String.toList "+B\n"] ∧
      String.toList "-A\n" ∈ [String.toList "--- Project1/x.txt",
        String.toList "+++ Project2/x.txt", String.toList "@@ -1 +1 @@",
        String.toList "-A\n", String.toList "+B\n"]) ∧
    (utf8DecodeWith [] (255 :: [10]) = utf8DecodeWith [] [10] ∧
      ((String.toList "-A\n").head? = some '-' ∨
        (String.toList "-A\n").head? = some '+' ∨
        (String.toList "-A\n").head? = some '@' ∨
        (String.toList "-A\n").head? = some ' ') ∧
      [String.toList "--- Project1/x.txt", String.toList "+++ Project2/x.txt",
        String.toList "@@ -1 +1 @@", String.toList "-A\n",
        String.toList "+B\n"] ≠ [errorLine ("OSError".toList)]) :=
  ⟨⟨by decide, by decide, by decide⟩,
    C2_amended_ignore_decoding 255 [10] ["x.txt".toList] [65, 255, 10] [66, 10]
      [String.toList "--- Project1/x.txt", String.toList "+++ Project2/x.txt",
        String.toList "@@ -1 +1 @@", String.toList "-A\n", String.toList "+B\n"]
      (String.toList "-A\n") ("OSError".toList)
      (by decide) (by decide) (by decide)⟩

end PermissiveDecoding

section EqualInputMatcher

/-!
`SequenceMatcher` on two identical sequences finds the full diagonal match:
the dictionary phase's best candidate always lies on the main diagonal
(an off-diagonal run is a repeat whose earlier copy put an at-least-as-long
diagonal run into `bestsize` first), and the widening loops then stretch a
diagonal best to the whole range.  Hence `unified_diff(a, a)` is empty.
-/

/-- Membership in `b2j`. -/
theorem mem_b2j {a : List Line} {x : Line} {j : Nat} :
    j ∈ b2j a x ↔ isPopular a x = false ∧ j < a.length ∧ a.get? j = some x := by
  unfold b2j
  by_cases hp : isPopular a x = true
  · simp [hp]
  · have hp' : isPopular a x = false := by
      revert hp
      cases isPopular a x <;> simp
    rw [if_neg (by simp [hp'])]
    simp [List.mem_filter, List.mem_range, hp']

/-- `b2j` lists are strictly ascending. -/
theorem b2j_pairwise (a : List Line) (x : Line) : (b2j a x).Pairwise (· < ·) := by
  unfold b2j
  by_cases hp : isPopular a x = true
  · simp [hp]
  · rw [if_neg hp]
    exact List.Pairwise.sublist (List.filter_sublist _) (List.pairwise_lt_range _)

/-- The elements at the row index and at every `b2j` index are non-popular
(they are the same element of `a`). -/
theorem popAt_of_mem_b2j {a : List Line} {x : Line} {i j : Nat}
    (hi : a.get? i = some x) (hj : j ∈ b2j a x) :
    popAt a i = false ∧ popAt a j = false := by
  obtain ⟨hp, hlt, hget⟩ := mem_b2j.mp hj
  constructor
  · unfold popAt
    rw [hi]
    exact hp
  · unfold popAt
    rw [hget]
    exact hp

/-- The diagonal index is in its own `b2j` list when non-popular. -/
theorem self_mem_b2j {a : List Line} {x : Line} {i : Nat}
    (hi : a.get? i = some x) (hp : isPopular a x = false) : i ∈ b2j a x := by
  refine mem_b2j.mpr ⟨hp, ?_, hi⟩
  rw [List.get?_eq_getElem?] at hi
  exact (List.getElem?_eq_some.mp hi).1

/-- The row dictionary after a row of `flmJStep`: each visited column `j`
holds `j2len.get(j-1, 0) + 1`, everything else keeps its old value. -/
theorem flmJStep_acc (n i : Nat) (p : Nat → Nat) :
    ∀ (js : List Nat) (acc : Nat → Nat) (st : FlmBest),
      (∀ j ∈ js, j < n) →
      ∀ j', (flmJStep 0 n i p js acc st).1 j' =
        if j' ∈ js then (if j' = 0 then 0 else p (j' - 1)) + 1 else acc j' := by
  intro js
  induction js with
  | nil =>
    intro acc st h j'
    simp [flmJStep]
  | cons j js ih =>
    intro acc st h j'
    have hjn : j < n := h j (List.mem_cons_self j js)
    simp only [flmJStep]
    rw [if_neg (Nat.not_lt_zero j), if_neg (not_le.mpr hjn)]
    rw [ih _ _ (fun x hx => h x (List.mem_cons_of_mem j hx)) j']
    by_cases h1 : j' ∈ js
    · rw [if_pos h1, if_pos (List.mem_cons_of_mem j h1)]
    · rw [if_neg h1]
      by_cases h2 : j' = j
      · subst h2
        rw [Function.update_same, if_pos (List.mem_cons_self j' js)]
      · rw [Function.update_noteq h2,
          if_neg (fun hm => (List.mem_cons.mp hm).elim h2 h1)]

/-- A row segment whose candidates are all at most the current best leaves
the best untouched. -/
theorem flmJStep_st_noupdate (n i : Nat) (p : Nat → Nat) :
    ∀ (js : List Nat) (acc : Nat → Nat) (st : FlmBest),
      (∀ j ∈ js, j < n ∧ (if j = 0 then 0 else p (j - 1)) + 1 ≤ st.bestsize) →
      (flmJStep 0 n i p js acc st).2 = st := by
  intro js
  induction js with
  | nil =>
    intro acc st h
    simp [flmJStep]
  | cons j js ih =>
    intro acc st h
    obtain ⟨hjn, hk⟩ := h j (List.mem_cons_self j js)
    simp only [flmJStep]
    rw [if_neg (Nat.not_lt_zero j), if_neg (not_le.mpr hjn),
      if_neg (not_lt.mpr hk)]
    exact ih _ _ (fun x hx => h x (List.mem_cons_of_mem j hx))

/-- Row processing splits over an append when no `break` can fire in the
first part. -/
theorem flmJStep_append (n i : Nat) (p : Nat → Nat) :
    ∀ (l1 l2 : List Nat) (acc : Nat → Nat) (st : FlmBest),
      (∀ j ∈ l1, j < n) →
      flmJStep 0 n i p (l1 ++ l2) acc st =
        flmJStep 0 n i p l2 (flmJStep 0 n i p l1 acc st).1
          (flmJStep 0 n i p l1 acc st).2 := by
  intro l1
  induction l1 with
  | nil =>
    intro l2 acc st h
    simp [flmJStep]
  | cons j l1 ih =>
    intro l2 acc st h
    have hjn : j < n := h j (List.mem_cons_self j l1)
    simp only [List.cons_append, flmJStep]
    rw [if_neg (Nat.not_lt_zero j), if_neg (not_le.mpr hjn)]
    rw [if_neg (Nat.not_lt_zero j), if_neg (not_le.mpr hjn)]
    exact ih l2 _ _ (fun x hx => h x (List.mem_cons_of_mem j hx))

/-- Runs grow by at most one per index. -/
theorem runLen_le (a : List Line) : ∀ i, runLen a i ≤ i + 1 := by
  intro i
  induction i with
  | zero =>
    rw [runLen]
    split <;> omega
  | succ i ih =>
    rw [runLen]
    split
    · omega
    · omega

/-- A non-popular position extends the previous run by one. -/
theorem runLen_pop_false {a : List Line} {i : Nat} (h : popAt a i = false) :
    runLen a i = (if i = 0 then 0 else runLen a (i - 1)) + 1 := by
  cases i with
  | zero => simp [runLen, h]
  | succ i => simp [runLen, h]

/-- A popular position starts no run. -/
theorem runLen_pop_true {a : List Line} {i : Nat} (h : popAt a i = true) :
    runLen a i = 0 := by
  cases i with
  | zero => simp [runLen, h]
  | succ i => simp [runLen, h]

/-- One diagonal row of the best-tracking loop: candidates left of the
diagonal are dominated by the current best, the diagonal candidate may
become the (still diagonal) new best, and candidates right of it are
dominated by the diagonal one. -/
theorem flm_row_st (a : List Line) (i : Nat) (p : Nat → Nat)
    (hacc1 : ∀ j, p j ≤ runLen a j)
    (hacc2 : ∀ j, p j ≤ (if i = 0 then 0 else runLen a (i - 1)))
    (hdiagkv : (if i = 0 then 0 else p (i - 1)) + 1 = runLen a i)
    (hpi : popAt a i = false) :
    ∀ (js : List Nat) (acc : Nat → Nat) (st : FlmBest),
      js.Pairwise (· < ·) →
      (∀ j ∈ js, j < a.length ∧ popAt a j = false) →
      st.besti = st.bestj →
      (∀ k, k < i → runLen a k ≤ st.bestsize) →
      (st.bestsize ≠ 0 → st.besti + st.bestsize ≤ i + 1) →
      (st.bestsize = 0 → st.besti = 0 ∧ st.bestj = 0) →
      (i ∈ js ∨ runLen a i ≤ st.bestsize) →
      (flmJStep 0 a.length i p js acc st).2.besti =
        (flmJStep 0 a.length i p js acc st).2.bestj ∧
      (∀ k, k < i → runLen a k ≤ (flmJStep 0 a.length i p js acc st).2.bestsize) ∧
      ((flmJStep 0 a.length i p js acc st).2.bestsize ≠ 0 →
        (flmJStep 0 a.length i p js acc st).2.besti +
          (flmJStep 0 a.length i p js acc st).2.bestsize ≤ i + 1) ∧
      ((flmJStep 0 a.length i p js acc st).2.bestsize = 0 →
        (flmJStep 0 a.length i p js acc st).2.besti = 0 ∧
        (flmJStep 0 a.length i p js acc st).2.bestj = 0) ∧
      runLen a i ≤ (flmJStep 0 a.length i p js acc st).2.bestsize := by
  intro js
  induction js with
  | nil =>
    intro acc st hsort hjs h1 h2 h3 h4 h5
    rcases h5 with h5 | h5
    · exact absurd h5 (List.not_mem_nil i)
    · exact ⟨h1, h2, h3, h4, h5⟩
  | cons j js ih =>
    intro acc st hsort hjs h1 h2 h3 h4 h5
    obtain ⟨hjn, hpj⟩ := hjs j (List.mem_cons_self j js)
    have hsort' : js.Pairwise (· < ·) := (List.pairwise_cons.mp hsort).2
    have hgt : ∀ y ∈ js, j < y := (List.pairwise_cons.mp hsort).1
    have hjs' : ∀ x ∈ js, x < a.length ∧ popAt a x = false :=
      fun x hx => hjs x (List.mem_cons_of_mem j hx)
    simp only [flmJStep]
    rw [if_neg (Nat.not_lt_zero j), if_neg (not_le.mpr hjn)]
    rcases lt_trichotomy j i with hji | rfl | hij
    -- left of the diagonal: dominated by an already recorded run
    · have hkv : (if j = 0 then 0 else p (j - 1)) + 1 ≤ st.bestsize := by
        refine le_trans ?_ (h2 j hji)
        rw [runLen_pop_false hpj]
        cases j with
        | zero => simp
        | succ j => simpa using hacc1 j
      rw [if_neg (not_lt.mpr hkv)]
      refine ih _ _ hsort' hjs' h1 h2 h3 h4 ?_
      rcases h5 with h5 | h5
      · rcases List.mem_cons.mp h5 with heq | h5
        · exact absurd hji (heq ▸ lt_irrefl i)
        · exact Or.inl h5
      · exact Or.inr h5
    -- the diagonal column: the only one that can improve the best
    · have hkv : (if j = 0 then 0 else p (j - 1)) + 1 = runLen a j := hdiagkv
      have hnotin : j ∉ js := fun hmem => lt_irrefl j (hgt j hmem)
      have hkv1 : 1 ≤ runLen a j := by
        rw [← hkv]
        omega
      have hkvle : runLen a j ≤ j + 1 := runLen_le a j
      by_cases hupd : st.bestsize < (if j = 0 then 0 else p (j - 1)) + 1
      · rw [if_pos hupd]
        rw [hkv]
        refine ih _ _ hsort' hjs' rfl ?_ ?_ ?_ ?_
        · intro k hk
          dsimp only
          rw [hkv] at hupd
          exact le_trans (h2 k hk) (le_of_lt hupd)
        · intro hs
          dsimp only at hs ⊢
          omega
        · intro hs
          dsimp only at hs
          omega
        · right
          dsimp only
          exact le_refl _
      · rw [if_neg hupd]
        rw [hkv] at hupd
        refine ih _ _ hsort' hjs' h1 h2 h3 h4 (Or.inr (not_lt.mp hupd))
    -- right of the diagonal: dominated by the diagonal candidate
    · have hiin : runLen a i ≤ st.bestsize := by
        rcases h5 with h5 | h5
        · rcases List.mem_cons.mp h5 with heq | h5
          · exact absurd hij (heq ▸ lt_irrefl i)
          · exact absurd (hgt i h5) (by omega)
        · exact h5
      have hkv : (if j = 0 then 0 else p (j - 1)) + 1 ≤ runLen a i := by
        rw [runLen_pop_false hpi]
        cases j with
        | zero => simp
        | succ j => simpa using hacc2 j
      rw [if_neg (not_lt.mpr (le_trans hkv hiin))]
      exact ih _ _ hsort' hjs' h1 h2 h3 h4 (Or.inr hiin)

/-- One full row of the dictionary phase on two copies of `a` preserves
both invariants. -/
theorem flm_row_step (a : List Line) (i : Nat) (p : Nat → Nat) (st : FlmBest)
    (hin : i < a.length) (hacc : AccInv a i p) (hst : StInv a i st) :
    AccInv a (i + 1) (flmJStep 0 a.length i p
      (match a.get? i with | some x => b2j a x | none => []) (fun _ => 0) st).1 ∧
    StInv a (i + 1) (flmJStep 0 a.length i p
      (match a.get? i with | some x => b2j a x | none => []) (fun _ => 0) st).2 := by
  obtain ⟨hacc1, hacc2, hacc3⟩ := hacc
  obtain ⟨hst1, hst2, hst3, hst4⟩ := hst
  have hx : ∃ x, a.get? i = some x := ⟨a.get ⟨i, hin⟩, List.get?_eq_get hin⟩
  obtain ⟨x, hx⟩ := hx
  simp only [hx]
  have hjslt : ∀ j ∈ b2j a x, j < a.length := fun j hj => (mem_b2j.mp hj).2.1
  have hpopi : popAt a i = isPopular a x := by
    unfold popAt
    rw [hx]
  -- candidate bounds
  have hkv_run : ∀ j ∈ b2j a x,
      (if j = 0 then 0 else p (j - 1)) + 1 ≤ runLen a j := by
    intro j hj
    have hpj : popAt a j = false := (popAt_of_mem_b2j hx hj).2
    rw [runLen_pop_false hpj]
    cases j with
    | zero => simp
    | succ j => simpa using hacc1 j
  have hkv_runi : popAt a i = false → ∀ j ∈ b2j a x,
      (if j = 0 then 0 else p (j - 1)) + 1 ≤ runLen a i := by
    intro hpi j hj
    rw [runLen_pop_false hpi]
    cases j with
    | zero => simp
    | succ j => simpa using hacc2 j
  have hkv_diag : popAt a i = false →
      (if i = 0 then 0 else p (i - 1)) + 1 = runLen a i := by
    intro hpi
    rw [runLen_pop_false hpi]
    cases i with
    | zero => simp
    | succ i =>
      rcases hacc3 with h0 | hdiag
      · exact absurd h0 (Nat.succ_ne_zero i)
      · rw [hdiag]
  by_cases hpop : isPopular a x = true
  -- popular row: the candidate list is empty, nothing changes
  · have hjs : b2j a x = [] := by
      unfold b2j
      rw [if_pos hpop]
    rw [hjs]
    have hri : runLen a i = 0 := runLen_pop_true (hpopi.trans hpop)
    constructor
    · refine ⟨?_, ?_, ?_⟩
      · intro j
        simp [flmJStep]
      · intro j
        simp [flmJStep]
      · right
        simp [flmJStep, hri]
    · refine ⟨hst1, ?_, ?_, hst4⟩
      · intro k hk
        rcases Nat.lt_succ_iff_lt_or_eq.mp hk with hk | rfl
        · simpa [flmJStep] using hst2 k hk
        · simp [flmJStep, hri]
      · intro hs
        have := hst3 (by simpa [flmJStep] using hs)
        simp [flmJStep]
        omega
  -- non-popular row
  · have hp' : isPopular a x = false := by
      revert hpop
      cases isPopular a x <;> simp
    have hpi : popAt a i = false := hpopi.trans hp'
    have hmem : i ∈ b2j a x := self_mem_b2j hx hp'
    constructor
    -- the new dictionary row
    · have hrow := flmJStep_acc a.length i p (b2j a x) (fun _ => 0) st hjslt
      refine ⟨?_, ?_, ?_⟩
      · intro j
        rw [hrow j]
        by_cases hj : j ∈ b2j a x
        · rw [if_pos hj]
          exact hkv_run j hj
        · rw [if_neg hj]
          exact Nat.zero_le _
      · intro j
        rw [hrow j]
        by_cases hj : j ∈ b2j a x
        · rw [if_pos hj]
          simpa using hkv_runi hpi j hj
        · rw [if_neg hj]
          exact Nat.zero_le _
      · right
        have : i + 1 - 1 = i := rfl
        rw [this, hrow i, if_pos hmem]
        exact hkv_diag hpi
    -- the best match stays diagonal
    · have hrow := flm_row_st a i p hacc1 hacc2 (hkv_diag hpi) hpi
        (b2j a x) (fun _ => 0) st (b2j_pairwise a x)
        (fun j hj => ⟨hjslt j hj, (popAt_of_mem_b2j hx hj).2⟩)
        hst1 (fun k hk => hst2 k hk)
        (fun hs => le_trans (hst3 hs) (Nat.le_succ i)) hst4
        (Or.inl hmem)
      obtain ⟨hr1, hr2, hr3, hr4, hr5⟩ := hrow
      refine ⟨hr1, ?_, hr3, hr4⟩
      intro k hk
      rcases Nat.lt_succ_iff_lt_or_eq.mp hk with hk | rfl
      · exact hr2 k hk
      · exact hr5

/-- The whole dictionary phase preserves the invariants. -/
theorem flm_rows_inv (a : List Line) :
    ∀ (cnt start : Nat) (p : Nat → Nat) (st : FlmBest),
      start + cnt ≤ a.length →
      AccInv a start p → StInv a start st →
      AccInv a (start + cnt)
        (flmRows a a 0 a.length (List.range' start cnt) (p, st)).1 ∧
      StInv a (start + cnt)
        (flmRows a a 0 a.length (List.range' start cnt) (p, st)).2 := by
  intro cnt
  induction cnt with
  | zero =>
    intro start p st h ha hs
    simpa [flmRows] using And.intro ha hs
  | succ cnt ih =>
    intro start p st h ha hs
    rw [List.range'_succ]
    have hrow := flm_row_step a start p st (by omega) ⟨ha.1, ha.2.1, ha.2.2⟩
      ⟨hs.1, hs.2.1, hs.2.2.1, hs.2.2.2⟩
    have hrec := ih (start + 1)
      (flmJStep 0 a.length start p
        (match a.get? start with | some x => b2j a x | none => []) (fun _ => 0) st).1
      (flmJStep 0 a.length start p
        (match a.get? start with | some x => b2j a x | none => []) (fun _ => 0) st).2
      (by omega) hrow.1 hrow.2
    have harith : start + 1 + cnt = start + (cnt + 1) := by omega
    rw [harith] at hrec
    simpa [flmRows] using hrec

/-- With an empty junk set the junk-widening guard is always false. -/
theorem extendLeftCond_junk (a b : List Line) (alo blo : Nat) (st : FlmBest) :
    extendLeftCond a b alo blo true st = false := by
  unfold extendLeftCond isbjunk
  cases b.get? (st.bestj - 1) <;> cases a.get? (st.besti - 1) <;> simp

/-- The junk-widening downward loop never moves. -/
theorem extendLeftGo_junk (a b : List Line) (alo blo : Nat) :
    ∀ (fuel : Nat) (st : FlmBest), extendLeftGo a b alo blo true fuel st = st := by
  intro fuel st
  cases fuel with
  | zero => rfl
  | succ f =>
    rw [extendLeftGo, extendLeftCond_junk]
    rfl

/-- With an empty junk set the junk-widening guard is always false. -/
theorem extendRightCond_junk (a b : List Line) (ahi bhi : Nat) (st : FlmBest) :
    extendRightCond a b ahi bhi true st = false := by
  unfold extendRightCond isbjunk
  cases b.get? (st.bestj + st.bestsize) <;>
    cases a.get? (st.besti + st.bestsize) <;> simp

/-- The junk-widening upward loop never moves. -/
theorem extendRightGo_junk (a b : List Line) (ahi bhi : Nat) :
    ∀ (fuel : Nat) (st : FlmBest), extendRightGo a b ahi bhi true fuel st = st := by
  intro fuel st
  cases fuel with
  | zero => rfl
  | succ f =>
    rw [extendRightGo, extendRightCond_junk]
    rfl

/-- On two copies of `a`, a diagonal non-empty match widens down to the
start of the range. -/
theorem extendLeftGo_diag (a : List Line) :
    ∀ (d s : Nat), d + s ≤ a.length → 0 < s →
      extendLeftGo a a 0 0 false d (FlmBest.mk d d s) =
        FlmBest.mk 0 0 (s + d) := by
  intro d
  induction d with
  | zero =>
    intro s h hs
    rfl
  | succ d ih =>
    intro s h hs
    have hdn : d < a.length := by omega
    have hget : a.get? (d + 1 - 1) = some (a.get ⟨d, hdn⟩) := by
      rw [Nat.add_sub_cancel]
      exact List.get?_eq_get hdn
    rw [extendLeftGo]
    have hcond : extendLeftCond a a 0 0 false (FlmBest.mk (d + 1) (d + 1) s) =
        true := by
      unfold extendLeftCond isbjunk
      dsimp only
      rw [hget]
      simp
    rw [hcond]
    rw [if_pos rfl]
    dsimp only
    rw [Nat.add_sub_cancel]
    rw [ih (s + 1) (by omega) (by omega)]
    congr 1
    omega

/-- On two copies of `a`, a diagonal match anchored at the start widens up
to the whole sequence. -/
theorem extendRightGo_diag (a : List Line) :
    ∀ (fuel s : Nat), s + fuel = a.length →
      extendRightGo a a a.length a.length false fuel (FlmBest.mk 0 0 s) =
        FlmBest.mk 0 0 a.length := by
  intro fuel
  induction fuel with
  | zero =>
    intro s h
    rw [extendRightGo]
    rw [show s = a.length by omega]
  | succ f ih =>
    intro s h
    have hsn : s < a.length := by omega
    have hget : a.get? (0 + s) = some (a.get ⟨s, hsn⟩) := by
      rw [Nat.zero_add]
      exact List.get?_eq_get hsn
    rw [extendRightGo]
    have hcond : extendRightCond a a a.length a.length false
        (FlmBest.mk 0 0 s) = true := by
      unfold extendRightCond isbjunk
      dsimp only
      rw [hget]
      simp
      omega
    rw [hcond]
    rw [if_pos rfl]
    dsimp only
    exact ih (s + 1) (by omega)

/-- The four widening loops take any diagonal best (or the empty initial
one) to the full-range match on two copies of `a`. -/
theorem extend_all_diag (a : List Line) (stN : FlmBest)
    (e1 : stN.besti = stN.bestj)
    (e3 : stN.bestsize ≠ 0 → stN.besti + stN.bestsize ≤ a.length)
    (e4 : stN.bestsize = 0 → stN.besti = 0 ∧ stN.bestj = 0) :
    extendRight a a a.length a.length true
      (extendLeft a a 0 0 true
        (extendRight a a a.length a.length false
          (extendLeft a a 0 0 false stN))) = FlmBest.mk 0 0 a.length := by
  obtain ⟨bi, bj, bs⟩ := stN
  dsimp only at e1 e3 e4
  subst e1
  cases bs with
  | zero =>
    obtain ⟨h0, -⟩ := e4 rfl
    subst h0
    have hL : extendLeft a a 0 0 false (FlmBest.mk 0 0 0) = FlmBest.mk 0 0 0 := rfl
    rw [hL]
    have hR : extendRight a a a.length a.length false (FlmBest.mk 0 0 0) =
        FlmBest.mk 0 0 a.length := by
      show extendRightGo a a a.length a.length false (a.length - (0 + 0))
        (FlmBest.mk 0 0 0) = FlmBest.mk 0 0 a.length
      exact extendRightGo_diag a (a.length - (0 + 0)) 0 (by omega)
    rw [hR]
    rw [show extendLeft a a 0 0 true (FlmBest.mk 0 0 a.length) =
      FlmBest.mk 0 0 a.length from extendLeftGo_junk a a 0 0 _ _]
    exact extendRightGo_junk a a a.length a.length _ _
  | succ s =>
    have hbound : bi + (s + 1) ≤ a.length := e3 (Nat.succ_ne_zero s)
    have hL : extendLeft a a 0 0 false (FlmBest.mk bi bi (s + 1)) =
        FlmBest.mk 0 0 (s + 1 + bi) := by
      show extendLeftGo a a 0 0 false bi (FlmBest.mk bi bi (s + 1)) =
        FlmBest.mk 0 0 (s + 1 + bi)
      exact extendLeftGo_diag a bi (s + 1) (by omega) (by omega)
    rw [hL]
    have hR : extendRight a a a.length a.length false
        (FlmBest.mk 0 0 (s + 1 + bi)) = FlmBest.mk 0 0 a.length := by
      show extendRightGo a a a.length a.length false
        (a.length - (0 + (s + 1 + bi))) (FlmBest.mk 0 0 (s + 1 + bi)) =
        FlmBest.mk 0 0 a.length
      exact extendRightGo_diag a (a.length - (0 + (s + 1 + bi))) (s + 1 + bi)
        (by omega)
    rw [hR]
    rw [show extendLeft a a 0 0 true (FlmBest.mk 0 0 a.length) =
      FlmBest.mk 0 0 a.length from extendLeftGo_junk a a 0 0 _ _]
    exact extendRightGo_junk a a a.length a.length _ _

/-- `find_longest_match` on two copies of `a` over the full range returns
the full match. -/
theorem flm_equal (a : List Line) :
    findLongestMatch a a 0 a.length 0 a.length = FlmBest.mk 0 0 a.length := by
  have h0a : AccInv a 0 (fun _ => 0) := by
    refine ⟨fun j => Nat.zero_le _, fun j => ?_, Or.inl rfl⟩
    simp
  have h0s : StInv a 0 (FlmBest.mk 0 0 0) := by
    refine ⟨rfl, fun k hk => absurd hk (Nat.not_lt_zero k), ?_, fun _ => ⟨rfl, rfl⟩⟩
    intro h
    exact absurd rfl h
  have hrows := flm_rows_inv a a.length 0 (fun _ => 0) (FlmBest.mk 0 0 0)
    (by omega) h0a h0s
  rw [Nat.zero_add] at hrows
  obtain ⟨-, hstN⟩ := hrows
  show extendRight a a a.length a.length true
      (extendLeft a a 0 0 true
        (extendRight a a a.length a.length false
          (extendLeft a a 0 0 false
            (flmRows a a 0 a.length (List.range' 0 (a.length - 0))
              (fun _ => 0, FlmBest.mk 0 0 0)).2))) = FlmBest.mk 0 0 a.length
  have hsub : a.length - 0 = a.length := Nat.sub_zero _
  rw [hsub]
  exact extend_all_diag a _ hstN.1 (fun hs => hstN.2.2.1 hs) hstN.2.2.2

/-- The matching blocks of two copies of `a`: the full match plus the
sentinel. -/
theorem getMatchingBlocks_equal (a : List Line) :
    getMatchingBlocks a a =
      if a.length = 0 then [(0, 0, 0)]
      else [(0, 0, a.length), (a.length, a.length, 0)] := by
  have haux : matchingBlocksAux a a (a.length + a.length + 1) 0 a.length
      0 a.length = if a.length = 0 then [] else [(0, 0, a.length)] := by
    rw [matchingBlocksAux]
    rw [flm_equal a]
    dsimp only
    by_cases hn : a.length = 0
    · rw [if_pos hn, if_pos hn]
    · rw [if_neg hn]
      rw [if_neg (by omega : ¬((0 : Nat) < 0 ∧ (0 : Nat) < 0))]
      rw [if_neg (by omega :
        ¬(0 + a.length < a.length ∧ 0 + a.length < a.length))]
      rw [if_neg hn]
      simp
  unfold getMatchingBlocks
  rw [haux]
  by_cases hn : a.length = 0
  · rw [if_pos hn, if_pos hn, hn]
    rfl
  · rw [if_neg hn, if_neg hn]
    show coalesceBlocks (0, 0, 0)
      (insertionSort tripleLe [(0, 0, a.length)]) ++ [(a.length, a.length, 0)] =
      [(0, 0, a.length), (a.length, a.length, 0)]
    have hsort : insertionSort tripleLe [(0, 0, a.length)] = [(0, 0, a.length)] := rfl
    rw [hsort]
    rw [coalesceBlocks]
    rw [if_pos (by omega : 0 + 0 = 0 ∧ 0 + 0 = (0 : Nat))]
    rw [coalesceBlocks]
    rw [if_pos (by omega : 0 + a.length ≠ 0)]
    rw [Nat.zero_add]
    rfl

/-- The opcodes of two copies of `a`: one `equal` opcode (or nothing). -/
theorem getOpcodes_equal (a : List Line) :
    getOpcodes a a =
      if a.length = 0 then []
      else [Opc.mk Tag.equal 0 a.length 0 a.length] := by
  unfold getOpcodes
  rw [getMatchingBlocks_equal]
  by_cases hn : a.length = 0
  · rw [if_pos hn, if_pos hn]
    rw [opcodesLoop]
    rw [if_neg (by omega : ¬(0 < 0 ∧ 0 < 0)), if_neg (by omega : ¬(0 < (0 : Nat))),
      if_neg (by omega : ¬(0 < (0 : Nat))), if_neg (by simp : ¬((0 : Nat) ≠ 0))]
    rfl
  · rw [if_neg hn, if_neg hn]
    rw [opcodesLoop]
    rw [if_neg (by omega : ¬(0 < 0 ∧ 0 < 0)), if_neg (by omega : ¬(0 < (0 : Nat))),
      if_neg (by omega : ¬(0 < (0 : Nat))), if_pos hn]
    rw [opcodesLoop]
    rw [if_neg (by omega : ¬(0 + a.length < a.length ∧ 0 + a.length < a.length)),
      if_neg (by omega : ¬(0 + a.length < a.length)),
      if_neg (by omega : ¬(0 + a.length < a.length)),
      if_neg (by simp : ¬((0 : Nat) ≠ 0))]
    rw [opcodesLoop]
    simp [Nat.zero_add]

/-- Grouping the opcodes of two identical inputs yields no group. -/
theorem getGroupedOpcodes_equal (a : List Line) :
    getGroupedOpcodes 3 (getOpcodes a a) = [] := by
  rw [getOpcodes_equal]
  by_cases hn : a.length = 0
  · rw [if_pos hn]
    rfl
  · rw [if_neg hn]
    unfold getGroupedOpcodes
    rw [if_neg (by simp : ¬([Opc.mk Tag.equal 0 a.length 0 a.length] = []))]
    dsimp only
    have h1 : trimHead 3 [Opc.mk Tag.equal 0 a.length 0 a.length] =
        [Opc.mk Tag.equal (max 0 (a.length - 3)) a.length
          (max 0 (a.length - 3)) a.length] := rfl
    have h2 : trimLast 3 [Opc.mk Tag.equal (max 0 (a.length - 3)) a.length
        (max 0 (a.length - 3)) a.length] =
        [Opc.mk Tag.equal (max 0 (a.length - 3))
          (min a.length (max 0 (a.length - 3) + 3)) (max 0 (a.length - 3))
          (min a.length (max 0 (a.length - 3) + 3))] := rfl
    rw [h1, h2]
    rw [groupLoop]
    rw [if_neg (by
      rintro ⟨-, hlt⟩
      dsimp only at hlt
      omega)]
    rw [List.nil_append]
    rw [groupLoop]
    rw [if_neg (by
      rintro ⟨-, hfalse⟩
      rw [show isSingleEqual [Opc.mk Tag.equal (max 0 (a.length - 3))
          (min a.length (max 0 (a.length - 3) + 3)) (max 0 (a.length - 3))
          (min a.length (max 0 (a.length - 3) + 3))] = true by
        simp [isSingleEqual]] at hfalse
      exact Bool.noConfusion hfalse)]

/-- The unified diff of a line list against itself is empty: no groups, so
not even the `---`/`+++` file headers are emitted. -/
theorem unifiedDiff_self (a : List Line) (f1 f2 : List Char) :
    unifiedDiff a a f1 f2 = [] := by
  unfold unifiedDiff
  rw [getGroupedOpcodes_equal]

/-- C9: for every path in the common set whose two files read successfully
and have identical line-for-line content, `compare` records nothing for
that path in `diff_files`: the path is absent outright (for every candidate
record, including the empty one), not mapped to an empty diff. -/
theorem C9_identical_no_record (cfg : FilterConfig) (t1 t2 : Forest)
    (p : RelPath) (b1 b2 : List Nat)
    (h1 : readBytes p t1 = Except.ok b1) (h2 : readBytes p t2 = Except.ok b2)
    (heq : pyReadLines b1 = pyReadLines b2) :
    ∀ d, (p, d) ∉ (compare cfg t1 t2).diff_files := by
  intro d hd
  obtain ⟨-, -, hcc⟩ := compare_diff_files_mem.mp hd
  rw [h1, h2] at hcc
  have hcc' : (if 0 < (unifiedDiff (pyReadLines b1) (pyReadLines b2)
      (String.toList "Project1/" ++ relStr p)
      (String.toList "Project2/" ++ relStr p)).length then
      some (unifiedDiff (pyReadLines b1) (pyReadLines b2)
        (String.toList "Project1/" ++ relStr p)
        (String.toList "Project2/" ++ relStr p)) else none) = some d := hcc
  rw [heq, unifiedDiff_self] at hcc'
  simp at hcc'

theorem C9_identical_no_record_witness :
    ([String.toList "x.txt"], ([] : List Line)) ∉
      (compare (FilterConfig.mk [] [] [] [])
        (Forest.file (String.toList "x.txt") [104, 105, 10] Forest.nil)
        (Forest.file (String.toList "x.txt") [104, 105, 10] Forest.nil)).diff_files :=
  C9_identical_no_record (FilterConfig.mk [] [] [] [])
    (Forest.file (String.toList "x.txt") [104, 105, 10] Forest.nil)
    (Forest.file (String.toList "x.txt") [104, 105, 10] Forest.nil)
    [String.toList "x.txt"] [104, 105, 10] [104, 105, 10] rfl rfl rfl []

end EqualInputMatcher

end CompareProjects
